import Mathlib

/-!
Shallow embedding of the big-little-solver repository.

Python dictionaries are modelled as association lists `List (α × β)` in
insertion order.  Dictionary lookup (`d[k]`, `d.get(k)`) reads the first
binding of a key (`alook`); real Python dictionaries never hold a key twice,
so theorems about dictionary inputs carry `Nodup` hypotheses on the key list
where the uniqueness matters.  Item assignment `d[k] = v` (`aset`) replaces
the first binding in place, or appends a fresh one.  A dict comprehension
built from a list of pairs keeps the last binding of each key (`dlook`).
Operations that can raise (`KeyError`, `ValueError`) return `Option`.
-/

namespace BigLittle

variable {α : Type} {β : Type} [DecidableEq α]

/-- Key list of an association-list dictionary (`d.keys()`). -/
def keys (d : List (α × β)) : List α := d.map Prod.fst

/-- Dictionary lookup `d[k]` / `d.get(k)`: first binding of `k`, `none` if
absent (a `KeyError` for the bracket form). -/
def alook (k : α) : List (α × β) → Option β
  | [] => none
  | e :: d => if e.1 = k then some e.2 else alook k d

/-- Item assignment `d[k] = v`: replace the first binding of `k` in place,
append when `k` is absent. -/
def aset (k : α) (v : β) : List (α × β) → List (α × β)
  | [] => [(k, v)]
  | e :: d => if e.1 = k then (k, v) :: d else e :: aset k v d

/-- Lookup in the dictionary `{k: v for k, v in pairs}`: the last binding of
a key wins. -/
def dlook (k : α) : List (α × β) → Option β
  | [] => none
  | e :: d =>
    match dlook k d with
    | some v => some v
    | none => if e.1 = k then some e.2 else none

/-- Rank of `p` in the dictionary `{proposer: rank for rank, proposer in
enumerate(prefs)}`: the index of the last occurrence of `p`, `none` when `p`
is absent (a `KeyError` at use sites). -/
def enumRank : List α → α → Option Nat
  | [], _ => none
  | x :: xs, p =>
    match enumRank xs p with
    | some k => some (k + 1)
    | none => if x = p then some 0 else none

/-- Result of `lst.index(x)`: index of the first occurrence, `none` when
absent (a `ValueError`). -/
def pyIndex : List α → α → Option Nat
  | [], _ => none
  | x :: xs, p => if x = p then some 0 else (pyIndex xs p).map (· + 1)

/-!
The deferred-acceptance solver `GaleShapley` (`src/galeshapely.py`).

`proposersPrefs` and `receiversPrefs` are the constructor arguments; the
`while free_proposers` loop of `GaleShapley.match` becomes the fuelled
recursion `gsRun` over an explicit loop state.  `gsRun` additionally counts
the proposal attempts (iterations that reach lines 31-32 of the source) and
returns `none` either on an uncaught `KeyError` or when the fuel runs out;
`fuel0` is shown to be enough fuel for every input.
-/

namespace GaleShapley

/-- Loop state of `GaleShapley.match`: the `free_proposers` queue, the
`current_matches` dictionary (receiver ↦ proposer, insertion ordered) and the
`next_proposals` dictionary (proposer ↦ cursor). -/
structure GSState (α : Type) where
  free : List α
  cm : List (α × α)
  nxt : List (α × Nat)

/-- Outcome of one iteration of the `while` loop body: a `KeyError`, or the
successor state together with whether a proposal was attempted. -/
inductive StepRes (α : Type) where
  | crash : StepRes α
  | step : GSState α → Bool → StepRes α

/-- One iteration of the loop body of `GaleShapley.match` (source lines
26-44), acting on the popped proposer `p` and the rest of the queue.
`receivers_rankings[receiver][x]` is `enumRank` of the receiver's preference
list, as precomputed in `__init__`. -/
def gsStep (pp rp : List (α × List α)) (p : α) (rest : List α)
    (m : List (α × α)) (nx : List (α × Nat)) : StepRes α :=
  match alook p pp, alook p nx with
  | some prefs, some c =>
    match prefs.get? c with
    | none => .step ⟨rest, m, nx⟩ false
    | some r =>
      let nx' := aset p (c + 1) nx
      match alook r m with
      | none => .step ⟨rest, aset r p m, nx'⟩ true
      | some cur =>
        match alook r rp with
        | none => .crash
        | some rl =>
          match enumRank rl p, enumRank rl cur with
          | some rkNew, some rkCur =>
            if rkNew < rkCur then .step ⟨rest ++ [cur], aset r p m, nx'⟩ true
            else .step ⟨rest ++ [p], m, nx'⟩ true
          | _, _ => .crash
  | _, _ => .crash

/-- The `while free_proposers` loop with fuel, threading the count of
proposal attempts; on exit it builds the result list
`[(proposer, receiver) for receiver, proposer in current_matches.items()]`. -/
def gsRun (pp rp : List (α × List α)) :
    Nat → GSState α → Nat → Option (List (α × α) × Nat)
  | _, ⟨[], m, _⟩, cnt => some (m.map (fun e => (e.2, e.1)), cnt)
  | 0, ⟨_ :: _, _, _⟩, _ => none
  | fuel + 1, ⟨p :: rest, m, nx⟩, cnt =>
    match gsStep pp rp p rest m nx with
    | .crash => none
    | .step st hp => gsRun pp rp fuel st (if hp then cnt + 1 else cnt)

/-- Initial loop state: all proposers free, no matches, all cursors 0. -/
def initState (pp : List (α × List α)) : GSState α :=
  ⟨keys pp, [], (keys pp).map (fun p => (p, 0))⟩

/-- Fuel that always suffices: one pop per proposer plus one per preference
entry. -/
def fuel0 (pp : List (α × List α)) : Nat :=
  pp.length + (pp.map (fun e => e.2.length)).sum

/-- The run of `GaleShapley.match`, keeping the proposal-attempt count. -/
def matchRun (pp rp : List (α × List α)) : Option (List (α × α) × Nat) :=
  gsRun pp rp (fuel0 pp) (initState pp) 0

/-- `GaleShapley.match`: `none` models an uncaught `KeyError`. -/
def gsMatch (pp rp : List (α × List α)) : Option (List (α × α)) :=
  (matchRun pp rp).map Prod.fst

/-- Proposals left on a cursor dictionary: for each entry, the length of the
owner's preference list minus the cursor. -/
def remaining (pp : List (α × List α)) (nx : List (α × Nat)) : Nat :=
  (nx.map (fun e => ((alook e.1 pp).getD []).length - e.2)).sum

/-- Termination measure of the loop. -/
def gsMeasure (pp : List (α × List α)) (st : GSState α) : Nat :=
  st.free.length + remaining pp st.nxt

/-- Total of all cursors; equals the number of proposal attempts so far. -/
def cursorSum (nx : List (α × Nat)) : Nat := (nx.map Prod.snd).sum

/-- Structural invariant of the loop state: cursors sit over the proposer
dictionary, the queue holds distinct proposers that are not currently
matched, matched receivers are distinct, no proposer holds two receivers,
cursors never pass the end of a list, and a matched pair sits exactly at the
proposer's cursor minus one. -/
structure Inv0 (pp : List (α × List α)) (st : GSState α) : Prop where
  nxt_keys : keys st.nxt = keys pp
  free_sub : ∀ q ∈ st.free, q ∈ keys pp
  val_sub : ∀ e ∈ st.cm, e.2 ∈ keys pp
  free_nodup : st.free.Nodup
  free_dis : ∀ q ∈ st.free, ∀ r, alook r st.cm ≠ some q
  rec_nodup : (keys st.cm).Nodup
  val_inj : ∀ r r' q, alook r st.cm = some q → alook r' st.cm = some q → r = r'
  cursor_le : ∀ e ∈ st.nxt, e.2 ≤ ((alook e.1 pp).getD []).length
  matched_at : ∀ e ∈ st.cm, ∃ c prefs, alook e.2 st.nxt = some c ∧
    alook e.2 pp = some prefs ∧ 1 ≤ c ∧ prefs.get? (c - 1) = some e.1

/-- Hypothesis of the termination claim: every receiver named on some
proposer's list is present in the receiver dictionary and ranks every
proposer that may propose to them (that lists that receiver). -/
def ReceiversRankProposers (pp rp : List (α × List α)) : Prop :=
  ∀ e ∈ pp, ∀ r ∈ e.2, (alook r rp).isSome = true ∧
    ∀ f ∈ pp, r ∈ f.2 → f.1 ∈ (alook r rp).getD []

/-- Length of the longest proposer preference list. -/
def maxPrefLen (pp : List (α × List α)) : Nat :=
  (pp.map (fun e => e.2.length)).foldr max 0

/-- History invariant: every receiver a proposer's cursor has passed is
currently matched, to somebody that receiver ranks at least as well. -/
def Proposed (pp rp : List (α × List α)) (st : GSState α) : Prop :=
  ∀ q c, alook q st.nxt = some c → ∀ i, i < c → ∀ r,
    ((alook q pp).getD []).get? i = some r →
    ∃ p' rl kp kq, alook r st.cm = some p' ∧ alook r rp = some rl ∧
      enumRank rl p' = some kp ∧ enumRank rl q = some kq ∧ kp ≤ kq

end GaleShapley

/-!
The `BigLittleMatcher` instability detector for list-valued preferences
(`src/biglittlematcher.py`, lines 257-294).
-/

namespace Matcher

/-- Body of the inner loop of
`BigLittleMatcher._check_instabilities_list_prefs` for one candidate pair
`(b, l)` with `l` on `b`'s list: `some true` when the pair is appended as an
instability, `some false` when the iteration skips or rejects it, `none` on
an uncaught `ValueError`/`KeyError`.  `bprefs` is `big_prefs[b]`; the
truthiness test `not b_matched_l` is absence (`none`), participant names
being non-empty values. -/
def checkPairList (lp : List (α × List α)) (b2l l2b : List (α × α))
    (bprefs : List α) (b l : α) : Option Bool :=
  if dlook b b2l = some l then some false
  else
    match dlook b b2l, dlook l l2b with
    | some mb, some lb =>
      match pyIndex bprefs l, pyIndex bprefs mb with
      | some il, some imb =>
        match alook l lp with
        | some lprefs =>
          match pyIndex lprefs b, pyIndex lprefs lb with
          | some ib, some ilb => some (decide (il < imb) && decide (ib < ilb))
          | _, _ => none
        | none => none
      | _, _ => none
    | _, _ => some false

/-- Inner loop `for l in self.big_prefs[b]`, collecting instabilities. -/
def checkRowList (lp : List (α × List α)) (b2l l2b : List (α × α))
    (bprefs : List α) (b : α) : List α → Option (List (α × α))
  | [] => some []
  | l :: ls =>
    match checkPairList lp b2l l2b bprefs b l with
    | none => none
    | some add =>
      match checkRowList lp b2l l2b bprefs b ls with
      | none => none
      | some rest => some (if add then (b, l) :: rest else rest)

/-- Outer loop `for b in self.big_prefs`: each dictionary entry is visited
once, and `self.big_prefs[b]` is that entry's value. -/
def checkRowsList (lp : List (α × List α)) (b2l l2b : List (α × α)) :
    List (α × List α) → Option (List (α × α))
  | [] => some []
  | e :: es =>
    match checkRowList lp b2l l2b e.2 e.1 e.2 with
    | none => none
    | some row =>
      match checkRowsList lp b2l l2b es with
      | none => none
      | some rest => some (row ++ rest)

/-- `BigLittleMatcher._check_instabilities_list_prefs`: `big_to_little` and
`little_to_big` are the comprehensions over `matches`. -/
def check_instabilities_list_prefs (bp lp : List (α × List α))
    (ms : List (α × α)) : Option (List (α × α)) :=
  checkRowsList lp ms (ms.map (fun e => (e.2, e.1))) bp

/-- `BigLittleMatcher.check_instabilities` on list-valued preferences: the
early return for an empty match list, then the list-prefs branch of the
`isinstance` dispatch. -/
def check_instabilities_lists (bp lp : List (α × List α))
    (ms : List (α × α)) : Option (List (α × α)) :=
  if ms.isEmpty then some [] else check_instabilities_list_prefs bp lp ms

/-- Value of `sum(self.x[(b, l)] for l in ls)` under a 0/1 assignment `x` of
the decision variables. -/
def rowCount (x : α → α → Bool) (b : α) (ls : List α) : Nat :=
  (ls.filter (fun l => x b l)).length

/-- Value of `sum(self.x[(b, l)] for b in bs)` under a 0/1 assignment. -/
def colCount (x : α → α → Bool) (l : α) (bs : List α) : Nat :=
  (bs.filter (fun b => x b l)).length

/-- `preferred_littles` for the pair `(b, l)` (`build_model`, lines 76-79):
candidates `b` ranks strictly before `l`.  `list.index` is `List.indexOf`;
they agree wherever the element occurs, and the complete-list input contract
of this variant puts every candidate on every list.  `bp b` is the
dictionary value `big_prefs[b]`. -/
def preferredLittles (bp : α → List α) (littles : List α) (b l : α) : List α :=
  littles.filter (fun lp => (bp b).indexOf lp < (bp b).indexOf l)

/-- `preferred_bigs` for the pair `(b, l)` (`build_model`, lines 87-90). -/
def preferredBigs (lp : α → List α) (bigs : List α) (l b : α) : List α :=
  bigs.filter (fun bp => (lp l).indexOf bp < (lp l).indexOf b)

/-- All constraints emitted by `BigLittleMatcher.build_model`, evaluated on a
0/1 assignment: `x` gives the decision variables, `nm`, `bwb`, `lwb` the
three auxiliary boolean families (`not_matched_b_l`, `b_with_better_l`,
`l_with_better_b`).  An `OnlyEnforceIf` pair becomes the two implications,
`AddBoolOr` the three-way disjunction; the constant objective
`Maximize(0)` imposes nothing. -/
def FeasibleModel (bigs littles : List α) (bp lp : α → List α)
    (x nm bwb lwb : α → α → Bool) : Prop :=
  (∀ b ∈ bigs, rowCount x b littles = 1) ∧
  (∀ l ∈ littles, colCount x l bigs = 1) ∧
  (∀ b ∈ bigs, ∀ l ∈ littles,
    (nm b l = true → x b l = false) ∧
    (nm b l = false → x b l = true) ∧
    (if preferredLittles bp littles b l ≠ [] then
      (bwb b l = true → 1 ≤ rowCount x b (preferredLittles bp littles b l)) ∧
      (bwb b l = false → rowCount x b (preferredLittles bp littles b l) = 0)
     else bwb b l = false) ∧
    (if preferredBigs lp bigs l b ≠ [] then
      (lwb b l = true → 1 ≤ colCount x l (preferredBigs lp bigs l b)) ∧
      (lwb b l = false → colCount x l (preferredBigs lp bigs l b) = 0)
     else lwb b l = false) ∧
    (nm b l = false ∨ bwb b l = true ∨ lwb b l = true))

/-- A 0/1 assignment of the decision variables is feasible for the emitted
system when some assignment of the auxiliary booleans satisfies every
constraint. -/
def BuildModelFeasible (bigs littles : List α) (bp lp : α → List α)
    (x : α → α → Bool) : Prop :=
  ∃ nm bwb lwb, FeasibleModel bigs littles bp lp x nm bwb lwb

/-- Spec-side reading of the claim: the selected pairs form a perfect
matching — each big and each little matched exactly once. -/
def SpecPerfectMatching (bigs littles : List α) (x : α → α → Bool) : Prop :=
  (∀ b ∈ bigs, rowCount x b littles = 1) ∧
  (∀ l ∈ littles, colCount x l bigs = 1)

/-- Spec-side blocking pair: `(b, l)` unmatched, `b` strictly prefers `l` to
an assigned partner, and `l` strictly prefers `b` to an assigned partner
(earlier list position = more preferred). -/
def SpecBlockingPair (bigs littles : List α) (bp lp : α → List α)
    (x : α → α → Bool) (b l : α) : Prop :=
  x b l = false ∧
  (∃ l0 ∈ littles, x b l0 = true ∧ (bp b).indexOf l < (bp b).indexOf l0) ∧
  (∃ b0 ∈ bigs, x b0 l = true ∧ (lp l).indexOf b < (lp l).indexOf b0)

/-- Spec-side stability: no blocking pair among the candidate pairs. -/
def SpecStable (bigs littles : List α) (bp lp : α → List α)
    (x : α → α → Bool) : Prop :=
  ∀ b ∈ bigs, ∀ l ∈ littles, ¬ SpecBlockingPair bigs littles bp lp x b l

/-- Strict-total-order input contract for the constraint variant: distinct
participants, and every preference list duplicate-free listing exactly the
other side. -/
def StrictTotalOrderLists (bigs littles : List α) (bp lp : α → List α) : Prop :=
  bigs.Nodup ∧ littles.Nodup ∧
  (∀ b ∈ bigs, (bp b).Nodup ∧ (∀ l ∈ bp b, l ∈ littles) ∧
    ∀ l ∈ littles, l ∈ bp b) ∧
  (∀ l ∈ littles, (lp l).Nodup ∧ (∀ b ∈ lp l, b ∈ bigs) ∧
    ∀ b ∈ bigs, b ∈ lp l)

/-- `self.max_rank_b = len(self.littles)` (`BigLittleMatcher.__init__`,
line 18): the rank assigned to candidates a big leaves unranked. -/
def maxRankB (littles : List α) : Nat := littles.length

/-- `self.max_rank_l = len(self.bigs)` (line 19). -/
def maxRankL (bigs : List α) : Nat := bigs.length

/-- `self.big_prefs.get(b, {}).get(l, self.max_rank_b)` as read by
`build_model_smti` (line 185): `bp b l` is the rank entry when both lookups
succeed, `none` when either dictionary level misses. -/
def smtiBRank (bp : α → α → Option Nat) (littles : List α) (b l : α) : Nat :=
  (bp b l).getD (maxRankB littles)

/-- `self.little_prefs.get(l, {}).get(b, self.max_rank_l)` (line 186). -/
def smtiLRank (lp : α → α → Option Nat) (bigs : List α) (l b : α) : Nat :=
  (lp l b).getD (maxRankL bigs)

/-- Acceptability skip of `build_model_smti` (line 188): the pair is dropped
from the stability constraints when either side's rank equals the
sentinel. -/
def smtiSkip (bigs littles : List α) (bp lp : α → α → Option Nat)
    (b l : α) : Bool :=
  decide (smtiBRank bp littles b l = maxRankB littles) ||
  decide (smtiLRank lp bigs l b = maxRankL bigs)

/-- `preferred_littles` of `build_model_smti` (lines 196-199): candidates
ranked better or equal, unranked candidates carrying the sentinel. -/
def smtiPreferredLittles (bp : α → α → Option Nat) (littles : List α)
    (b l : α) : List α :=
  littles.filter (fun l2 => smtiBRank bp littles b l2 ≤ smtiBRank bp littles b l)

/-- `preferred_bigs` of `build_model_smti` (lines 204-207). -/
def smtiPreferredBigs (lp : α → α → Option Nat) (bigs : List α)
    (l b : α) : List α :=
  bigs.filter (fun b2 => smtiLRank lp bigs l b2 ≤ smtiLRank lp bigs l b)

/-- All constraints emitted by `BigLittleMatcher.build_model_smti` on a 0/1
assignment: at-most-one constraints for every participant, and, only for
pairs passing the acceptability test, the tied stability constraint with its
auxiliary booleans. -/
def FeasibleSmtiModel (bigs littles : List α) (bp lp : α → α → Option Nat)
    (x nm bwb lwb : α → α → Bool) : Prop :=
  (∀ b ∈ bigs, rowCount x b littles ≤ 1) ∧
  (∀ l ∈ littles, colCount x l bigs ≤ 1) ∧
  (∀ b ∈ bigs, ∀ l ∈ littles, smtiSkip bigs littles bp lp b l = false →
    (nm b l = true → x b l = false) ∧
    (nm b l = false → x b l = true) ∧
    (bwb b l = true → 1 ≤ rowCount x b (smtiPreferredLittles bp littles b l)) ∧
    (bwb b l = false → rowCount x b (smtiPreferredLittles bp littles b l) = 0) ∧
    (lwb b l = true → 1 ≤ colCount x l (smtiPreferredBigs lp bigs l b)) ∧
    (lwb b l = false → colCount x l (smtiPreferredBigs lp bigs l b) = 0) ∧
    (nm b l = false ∨ bwb b l = true ∨ lwb b l = true))

/-- Feasibility of the `build_model_smti` system for the decision
variables. -/
def BuildModelSmtiFeasible (bigs littles : List α)
    (bp lp : α → α → Option Nat) (x : α → α → Bool) : Prop :=
  ∃ nm bwb lwb, FeasibleSmtiModel bigs littles bp lp x nm bwb lwb

/-- Solver status values reported by the constraint backend. -/
inductive CpStatus where
  | OPTIMAL
  | FEASIBLE
  | INFEASIBLE
  | MODEL_INVALID
  | UNKNOWN
  deriving DecidableEq

/-- `BigLittleMatcher.solve` (lines 22-29), abstracted over the backend
call: from the status the backend returns and the matching selected by its
assignment, either raise `ValueError('Not possible!')` — on every
non-`OPTIMAL` status alike — or return the matches. -/
def solveOutcome (status : CpStatus) (ms : List (α × α)) :
    Except String (List (α × α)) :=
  if status = CpStatus.OPTIMAL then Except.ok ms
  else Except.error "Not possible!"

/-- The rank `build_model_optimize` uses (line 246): first position of `l`
in `big_prefs.get(b, [])`, sentinel `max_rank_b` when unranked. -/
def optRankB (bp : α → List α) (littles : List α) (b l : α) : Nat :=
  if l ∈ bp b then (bp b).indexOf l else maxRankB littles

/-- Little-side rank of `build_model_optimize` (line 247). -/
def optRankL (lp : α → List α) (bigs : List α) (l b : α) : Nat :=
  if b ∈ lp l then (lp l).indexOf b else maxRankL bigs

/-- `self.scores[(b, l)]` as computed by `build_model_optimize`
(lines 249-252), over exact rationals. -/
def score (w : ℚ) (bp lp : α → List α) (bigs littles : List α) (b l : α) : ℚ :=
  w * ((maxRankB littles : ℚ) - optRankB bp littles b l) +
  (1 - w) * ((maxRankL bigs : ℚ) - optRankL lp bigs l b)

/-- The objective expression handed to the backend (line 255), evaluated on
an assignment: the sum of `scores[(b, l)] * x[(b, l)]` over every created
pair, in creation order. -/
def optObjective (w : ℚ) (bp lp : α → List α) (bigs littles : List α)
    (x : α → α → Bool) : ℚ :=
  (bigs.map (fun b =>
    (littles.map (fun l =>
      score w bp lp bigs littles b l * (if x b l then 1 else 0))).sum)).sum

/-- Modelled from the spec's words: `normalized_rank_quality` maps the best
rank (position 0) to the maximum achievable value (the candidate count) and
the sentinel rank (the count itself) to zero, linearly in between. -/
def normalized_rank_quality (count rank : Nat) : ℚ := (count : ℚ) - rank

/-- Comparison over ranks where `none` models `float('inf')`. -/
def rltInf : Option Nat → Option Nat → Bool
  | none, _ => false
  | some _, none => true
  | some a, some b => decide (a < b)

/-- `d.get(p, {}).get(c, float('inf'))` for an optional candidate `c`
(`None`, a big/little's missing partner, is never a dictionary key). -/
def rankOfOpt (d : List (α × List (α × Nat))) (p : α) (c : Option α) :
    Option Nat :=
  match c with
  | none => none
  | some cv => alook cv ((alook p d).getD [])

/-- `BigLittleMatcher._is_instability` (lines 322-335): a strict-improvement
test on both sides, unranked partners counting as infinitely bad. -/
def is_instability (bp lp : List (α × List (α × Nat))) (b l : α)
    (b2l l2b : List (α × α)) : Bool :=
  rltInf (alook l ((alook b bp).getD [])) (rankOfOpt bp b (dlook b b2l)) &&
  rltInf (alook b ((alook l lp).getD [])) (rankOfOpt lp l (dlook l l2b))

/-- Inner loop of `_get_all_potential_pairs` (lines 315-319): iterate the
little-side keys, skipping unmatched littles and `b`'s own partner `bl`. -/
def potentialRow (l2b : List (α × α)) (bl b : α) :
    List (α × List (α × Nat)) → List (α × α)
  | [] => []
  | e :: es =>
    if dlook e.1 l2b = none ∨ e.1 = bl then potentialRow l2b bl b es
    else (b, e.1) :: potentialRow l2b bl b es

/-- Outer loop of `_get_all_potential_pairs` (lines 311-319): iterate the
big-side keys, skipping unmatched bigs. -/
def potentialPairs (lp : List (α × List (α × Nat))) (b2l l2b : List (α × α)) :
    List (α × List (α × Nat)) → List (α × α)
  | [] => []
  | e :: es =>
    (match dlook e.1 b2l with
     | none => []
     | some bl => potentialRow l2b bl e.1 lp) ++ potentialPairs lp b2l l2b es

/-- `BigLittleMatcher._get_all_potential_pairs`. -/
def get_all_potential_pairs (bp lp : List (α × List (α × Nat)))
    (b2l l2b : List (α × α)) : List (α × α) :=
  potentialPairs lp b2l l2b bp

/-- `BigLittleMatcher._check_instabilities_dict_prefs` (lines 296-306). -/
def check_instabilities_dict_prefs (bp lp : List (α × List (α × Nat)))
    (ms : List (α × α)) : List (α × α) :=
  (get_all_potential_pairs bp lp ms (ms.map (fun e => (e.2, e.1)))).filter
    (fun e => is_instability bp lp e.1 e.2 ms (ms.map (fun e => (e.2, e.1))))

/-- `BigLittleMatcher.check_instabilities` on dictionary preferences: the
empty-matching early return, then the dict branch of the `isinstance`
dispatch. -/
def check_instabilities_dicts (bp lp : List (α × List (α × Nat)))
    (ms : List (α × α)) : List (α × α) :=
  if ms.isEmpty then [] else check_instabilities_dict_prefs bp lp ms

end Matcher

/-- Strict-total-order input for the deferred-acceptance solver: both
dictionaries have distinct keys, and every participant's preference list is
duplicate-free and lists exactly the participants of the other side. -/
def StrictTotalOrderInput (pp rp : List (α × List α)) : Prop :=
  (keys pp).Nodup ∧ (keys rp).Nodup ∧
  (∀ e ∈ pp, e.2.Nodup ∧ (∀ r ∈ e.2, r ∈ keys rp) ∧ ∀ r ∈ keys rp, r ∈ e.2) ∧
  (∀ e ∈ rp, e.2.Nodup ∧ (∀ q ∈ e.2, q ∈ keys pp) ∧ ∀ q ∈ keys pp, q ∈ e.2)

/-!
Concrete instances used by the claims.
-/

/-- Proposer preferences of the spec's concrete 3x3 scenario. -/
def ppEx : List (String × List String) :=
  [("Ishaan", ["Swapneel", "Zora", "Kevin"]),
   ("Cindy", ["Kevin", "Swapneel", "Zora"]),
   ("Thomas", ["Zora", "Kevin", "Swapneel"])]

/-- Receiver preferences of the spec's concrete 3x3 scenario. -/
def rpEx : List (String × List String) :=
  [("Swapneel", ["Thomas", "Ishaan", "Cindy"]),
   ("Zora", ["Cindy", "Thomas", "Ishaan"]),
   ("Kevin", ["Ishaan", "Cindy", "Thomas"])]

/-- The pair list `GaleShapley.match` actually returns on that scenario. -/
def gsOutEx : List (String × String) :=
  [("Ishaan", "Swapneel"), ("Cindy", "Kevin"), ("Thomas", "Zora")]

/-- The bigs of the concrete scenario, as `build_model` reads them. -/
def bigsEx : List String := ["Ishaan", "Cindy", "Thomas"]

/-- The littles of the concrete scenario. -/
def littlesEx : List String := ["Swapneel", "Zora", "Kevin"]

/-- Big preferences as a total function on keys. -/
def bpfEx : String → List String := fun b => (alook b ppEx).getD []

/-- Little preferences as a total function on keys. -/
def lpfEx : String → List String := fun l => (alook l rpEx).getD []

/-- Partial (SMTI) big preferences: `b1` ranks only `l1`, `b2` only `l2`. -/
def bpD : List (String × List (String × Nat)) :=
  [("b1", [("l1", 1)]), ("b2", [("l2", 1)])]

/-- Partial (SMTI) little preferences: `l1` ranks only `b1`, `l2` only
`b2`. -/
def lpD : List (String × List (String × Nat)) :=
  [("l1", [("b1", 1)]), ("l2", [("b2", 1)])]

/-- A matching leaving `b2` and `l2` unmatched. -/
def msD : List (String × String) := [("b1", "l1")]

/-!
Theorems: dictionary and list lemmas, the loop invariants of the
deferred-acceptance solver, the constraint-system equivalences, and the
claims.
-/

theorem alook_isSome_iff {d : List (α × β)} {k : α} :
    (alook k d).isSome ↔ k ∈ keys d := by
  induction d with
  | nil => simp [alook, keys]
  | cons e d ih =>
    by_cases h : e.1 = k <;> simp [alook, keys, h, ih]
    exact fun h' => (h h'.symm).elim

theorem alook_eq_none_iff {d : List (α × β)} {k : α} :
    alook k d = none ↔ k ∉ keys d := by
  rw [← alook_isSome_iff, Option.isSome_iff_exists]
  constructor
  · rintro h ⟨v, hv⟩; simp [hv] at h
  · intro h
    cases hd : alook k d with
    | none => rfl
    | some v => exact absurd ⟨v, hd⟩ h

theorem alook_mem {d : List (α × β)} {k : α} {v : β} (h : alook k d = some v) :
    (k, v) ∈ d := by
  induction d with
  | nil => simp [alook] at h
  | cons e d ih =>
    obtain ⟨a, b⟩ := e
    by_cases he : a = k
    · simp only [alook, he, if_pos rfl] at h
      obtain rfl : b = v := by injection h
      subst he
      exact List.mem_cons_self _ _
    · simp only [alook, if_neg he] at h
      exact List.mem_cons_of_mem _ (ih h)

theorem alook_cons_ne {e : α × β} {d : List (α × β)} {k : α} (h : e.1 ≠ k) :
    alook k (e :: d) = alook k d := by
  simp [alook, h]

/-- On a dictionary whose keys are distinct, every binding is the one lookup
finds. -/
theorem alook_of_mem_nodup {d : List (α × β)} (hd : (keys d).Nodup)
    {e : α × β} (he : e ∈ d) : alook e.1 d = some e.2 := by
  induction d with
  | nil => simp at he
  | cons f d ih =>
    simp only [keys, List.map_cons, List.nodup_cons] at hd
    rcases List.mem_cons.1 he with rfl | he'
    · simp [alook]
    · have hne : f.1 ≠ e.1 := by
        intro heq
        exact hd.1 (heq ▸ List.mem_map_of_mem Prod.fst he')
      rw [alook_cons_ne hne]
      exact ih hd.2 he'

theorem keys_aset {d : List (α × β)} {k : α} {v : β} (h : k ∈ keys d) :
    keys (aset k v d) = keys d := by
  induction d with
  | nil => simp [keys] at h
  | cons e d ih =>
    by_cases he : e.1 = k
    · simp [aset, he, keys]
    · simp only [keys, List.map_cons, List.mem_cons] at h
      rcases h with h | h
      · exact absurd h.symm he
      · have := ih h
        simp only [keys] at this
        simp [aset, he, keys, this]

theorem length_aset {d : List (α × β)} {k : α} {v : β} (h : k ∈ keys d) :
    (aset k v d).length = d.length := by
  have := @keys_aset α β _ d k v h
  have h1 : (keys (aset k v d)).length = (keys d).length := by rw [this]
  simpa [keys] using h1

theorem alook_aset_self {d : List (α × β)} {k : α} {v : β} :
    alook k (aset k v d) = some v := by
  induction d with
  | nil => simp [aset, alook]
  | cons e d ih =>
    by_cases he : e.1 = k
    · simp [aset, he, alook]
    · simp [aset, he, alook, ih]

theorem alook_aset_ne {d : List (α × β)} {k k' : α} {v : β} (h : k ≠ k') :
    alook k' (aset k v d) = alook k' d := by
  induction d with
  | nil => simp [aset, alook, h]
  | cons e d ih =>
    by_cases he : e.1 = k
    · subst he
      simp [aset, alook, h]
    · simp [aset, he, alook, ih]

theorem mem_aset {d : List (α × β)} {k : α} {v : β} {e : α × β}
    (h : e ∈ aset k v d) : e = (k, v) ∨ e ∈ d := by
  induction d with
  | nil => simpa [aset] using h
  | cons f d ih =>
    by_cases hf : f.1 = k
    · simp only [aset, if_pos hf] at h
      rcases List.mem_cons.1 h with rfl | h'
      · exact Or.inl rfl
      · exact Or.inr (List.mem_cons_of_mem _ h')
    · simp only [aset, if_neg hf] at h
      rcases List.mem_cons.1 h with rfl | h'
      · exact Or.inr (List.mem_cons_self _ _)
      · rcases ih h' with h'' | h''
        · exact Or.inl h''
        · exact Or.inr (List.mem_cons_of_mem _ h'')

/-- When the key is absent, assignment appends the binding. -/
theorem aset_of_not_mem {d : List (α × β)} {k : α} {v : β} (h : k ∉ keys d) :
    aset k v d = d ++ [(k, v)] := by
  induction d with
  | nil => simp [aset]
  | cons e d ih =>
    simp only [keys, List.map_cons, List.mem_cons] at h
    push_neg at h
    simp [aset, Ne.symm h.1, ih h.2]

theorem alook_append {d1 d2 : List (α × β)} {k : α} :
    alook k (d1 ++ d2) =
      match alook k d1 with
      | some v => some v
      | none => alook k d2 := by
  induction d1 with
  | nil => simp [alook]
  | cons e d ih =>
    by_cases he : e.1 = k <;> simp [alook, he, ih]

theorem enumRank_isSome_iff {l : List α} {p : α} :
    (enumRank l p).isSome ↔ p ∈ l := by
  induction l with
  | nil => simp [enumRank]
  | cons x xs ih =>
    rw [enumRank]
    cases h : enumRank xs p with
    | some k =>
      simp only [Option.isSome_some, true_iff]
      exact List.mem_cons_of_mem _ (ih.1 (by simp [h]))
    | none =>
      by_cases hx : x = p
      · simp [hx, ← ih, h]
      · have hx' : ¬p = x := fun hpx => hx hpx.symm
        simp [hx, hx', ← ih, h]

theorem pyIndex_isSome_iff {l : List α} {p : α} :
    (pyIndex l p).isSome ↔ p ∈ l := by
  induction l with
  | nil => simp [pyIndex]
  | cons x xs ih =>
    by_cases hx : x = p
    · simp [pyIndex, hx]
    · have hx' : ¬p = x := fun hpx => hx hpx.symm
      simp [pyIndex, hx, hx', ← ih]

/-- On duplicate-free lists the enumerate-comprehension rank and `.index`
agree. -/
theorem enumRank_eq_pyIndex {l : List α} (h : l.Nodup) (p : α) :
    enumRank l p = pyIndex l p := by
  induction l with
  | nil => rfl
  | cons x xs ih =>
    simp only [List.nodup_cons] at h
    rw [enumRank, pyIndex, ih h.2]
    by_cases hx : x = p
    · subst hx
      have : pyIndex xs x = none := by
        cases hp : pyIndex xs x with
        | none => rfl
        | some k =>
          exact absurd (pyIndex_isSome_iff.1 (by simp [hp])) h.1
      simp [this]
    · cases hp : pyIndex xs p <;> simp [hx]

theorem pyIndex_get? {l : List α} {p : α} {k : Nat} (h : pyIndex l p = some k) :
    l.get? k = some p := by
  induction l generalizing k with
  | nil => simp [pyIndex] at h
  | cons x xs ih =>
    by_cases hx : x = p
    · simp only [pyIndex, if_pos hx] at h
      obtain rfl : (0 : Nat) = k := by injection h
      simpa using hx
    · simp only [pyIndex, if_neg hx] at h
      cases hp : pyIndex xs p with
      | none => simp [hp] at h
      | some j =>
        simp only [hp, Option.map_some'] at h
        obtain rfl : j + 1 = k := by injection h
        simpa using ih hp

theorem pyIndex_lt_length {l : List α} {p : α} {k : Nat}
    (h : pyIndex l p = some k) : k < l.length :=
  List.get?_eq_some.1 (pyIndex_get? h) |>.1

/-- On a duplicate-free list, the element at a position is recovered by
`.index`. -/
theorem pyIndex_of_get?_nodup {l : List α} (hl : l.Nodup) {k : Nat} {p : α}
    (h : l.get? k = some p) : pyIndex l p = some k := by
  induction l generalizing k with
  | nil => simp at h
  | cons x xs ih =>
    simp only [List.nodup_cons] at hl
    cases k with
    | zero =>
      obtain rfl : x = p := by simpa using h
      simp [pyIndex]
    | succ k =>
      simp only [List.get?_cons_succ] at h
      have hx : x ≠ p := by
        rintro rfl
        exact hl.1 (List.get?_mem h)
      simp [pyIndex, hx, ih hl.2 h]

/-- Distinct keys and injective values make the value list duplicate-free. -/
theorem vals_nodup {m : List (α × α)} (hk : (keys m).Nodup)
    (hinj : ∀ r r' q, alook r m = some q → alook r' m = some q → r = r') :
    (m.map Prod.snd).Nodup := by
  induction m with
  | nil => simp
  | cons e m ih =>
    simp only [keys, List.map_cons, List.nodup_cons] at hk ⊢
    constructor
    · intro hmem
      obtain ⟨f, hf, hfe⟩ := List.mem_map.1 hmem
      have hfk : f.1 ∈ List.map Prod.fst m := List.mem_map_of_mem Prod.fst hf
      have hne : e.1 ≠ f.1 := fun h => hk.1 (h ▸ hfk)
      have h1 : alook e.1 (e :: m) = some e.2 := by simp [alook]
      have h2 : alook f.1 (e :: m) = some f.2 := by
        rw [alook_cons_ne hne]
        exact alook_of_mem_nodup hk.2 hf
      exact hne (hinj e.1 f.1 e.2 h1 (hfe ▸ h2))
    · refine ih hk.2 ?_
      intro r r' q h1 h2
      have hr : e.1 ≠ r := by
        intro h
        rw [← h] at h1
        exact absurd (alook_isSome_iff.1 (by rw [h1]; rfl)) hk.1
      have hr' : e.1 ≠ r' := by
        intro h
        rw [← h] at h2
        exact absurd (alook_isSome_iff.1 (by rw [h2]; rfl)) hk.1
      refine hinj r r' q ?_ ?_
      · rw [alook_cons_ne hr]; exact h1
      · rw [alook_cons_ne hr']; exact h2

/-- On a dictionary with distinct keys, comprehension lookup and plain lookup
agree. -/
theorem dlook_eq_alook {d : List (α × β)} (hd : (keys d).Nodup) (k : α) :
    dlook k d = alook k d := by
  induction d with
  | nil => rfl
  | cons e d ih =>
    simp only [keys, List.map_cons, List.nodup_cons] at hd
    rw [dlook, ih hd.2]
    by_cases he : e.1 = k
    · have hk : alook k d = none := by
        rw [alook_eq_none_iff]
        exact fun h => hd.1 (he ▸ h)
      rw [hk, alook, if_pos he]
      simp [he]
    · rw [alook, if_neg he]
      cases alook k d <;> simp [he]

omit [DecidableEq α] in
theorem map_swap_swap {m : List (α × α)} :
    (m.map (fun e => (e.2, e.1))).map (fun e => (e.2, e.1)) = m := by
  rw [List.map_map]
  have h : ((fun e : α × α => (e.2, e.1)) ∘ fun e : α × α => (e.2, e.1)) =
      fun e => e := by
    funext e
    rfl
  rw [h, List.map_id']

omit [DecidableEq α] in
theorem keys_map_swap {m : List (α × α)} :
    keys (m.map (fun e => (e.2, e.1))) = m.map Prod.snd := by
  simp [keys, List.map_map, Function.comp_def]

theorem alook_map_swap_mem {m : List (α × α)} {b r : α}
    (h : alook b (m.map (fun e => (e.2, e.1))) = some r) : (r, b) ∈ m := by
  induction m with
  | nil => simp [alook] at h
  | cons e m ih =>
    simp only [List.map_cons, alook] at h
    split at h
    case isTrue he =>
      injection h with h1
      have : e = (r, b) := by
        obtain ⟨x, y⟩ := e
        simp only at he h1
        rw [he, h1]
      exact this ▸ List.mem_cons_self _ _
    case isFalse he =>
      exact List.mem_cons_of_mem _ (ih h)

namespace GaleShapley

theorem remaining_aset {pp : List (α × List α)} {nx : List (α × Nat)}
    {p : α} {c : Nat} (h : alook p nx = some c)
    (hc : c < ((alook p pp).getD []).length) :
    remaining pp (aset p (c + 1) nx) + 1 = remaining pp nx := by
  induction nx with
  | nil => simp [alook] at h
  | cons e nx ih =>
    by_cases he : e.1 = p
    · subst he
      rw [alook, if_pos rfl] at h
      have he2 : e.2 = c := by injection h
      have ha : aset e.1 (c + 1) (e :: nx) = (e.1, c + 1) :: nx := by
        simp [aset]
      rw [ha]
      simp only [remaining, List.map_cons, List.sum_cons]
      omega
    · rw [alook_cons_ne he] at h
      have ha : aset p (c + 1) (e :: nx) = e :: aset p (c + 1) nx := by
        simp [aset, he]
      rw [ha]
      simp only [remaining, List.map_cons, List.sum_cons]
      have := ih h
      simp only [remaining] at this
      omega

theorem cursorSum_aset {nx : List (α × Nat)} {p : α} {c : Nat}
    (h : alook p nx = some c) :
    cursorSum (aset p (c + 1) nx) = cursorSum nx + 1 := by
  induction nx with
  | nil => simp [alook] at h
  | cons e nx ih =>
    by_cases he : e.1 = p
    · subst he
      rw [alook, if_pos rfl] at h
      have he2 : e.2 = c := by injection h
      have ha : aset e.1 (c + 1) (e :: nx) = (e.1, c + 1) :: nx := by
        simp [aset]
      rw [ha]
      simp only [cursorSum, List.map_cons, List.sum_cons]
      omega
    · rw [alook_cons_ne he] at h
      have ha : aset p (c + 1) (e :: nx) = e :: aset p (c + 1) nx := by
        simp [aset, he]
      rw [ha]
      simp only [cursorSum, List.map_cons, List.sum_cons]
      have := ih h
      simp only [cursorSum] at this
      omega

/-- Case analysis of one loop iteration that did not raise. -/
theorem gsStep_cases {pp rp : List (α × List α)} {p : α} {rest : List α}
    {m : List (α × α)} {nx : List (α × Nat)} {st' : GSState α} {b : Bool}
    (h : gsStep pp rp p rest m nx = .step st' b) :
    ∃ prefs c, alook p pp = some prefs ∧ alook p nx = some c ∧
      ((prefs.get? c = none ∧ st' = ⟨rest, m, nx⟩ ∧ b = false) ∨
       (∃ r, prefs.get? c = some r ∧ b = true ∧
        ((alook r m = none ∧ st' = ⟨rest, aset r p m, aset p (c + 1) nx⟩) ∨
         (∃ cur rl rkNew rkCur, alook r m = some cur ∧ alook r rp = some rl ∧
           enumRank rl p = some rkNew ∧ enumRank rl cur = some rkCur ∧
           ((rkNew < rkCur ∧
             st' = ⟨rest ++ [cur], aset r p m, aset p (c + 1) nx⟩) ∨
            (¬ rkNew < rkCur ∧ st' = ⟨rest ++ [p], m, aset p (c + 1) nx⟩)))))) := by
  rw [gsStep] at h
  split at h
  case h_2 => cases h
  case h_1 prefs c hpp hnx =>
    refine ⟨prefs, c, hpp, hnx, ?_⟩
    split at h
    case h_1 hget =>
      obtain ⟨rfl, rfl⟩ : st' = ⟨rest, m, nx⟩ ∧ false = b := by
        cases h; exact ⟨rfl, rfl⟩
      exact Or.inl ⟨hget, rfl, rfl⟩
    case h_2 r hget =>
      refine Or.inr ⟨r, hget, ?_⟩
      split at h
      case h_1 hm =>
        cases h
        exact ⟨rfl, Or.inl ⟨hm, rfl⟩⟩
      case h_2 cur hm =>
        split at h
        case h_1 hrp => cases h
        case h_2 rl hrp =>
          split at h
          case h_2 h1 h2 => cases h
          case h_1 rkNew rkCur hrkN hrkC =>
            split at h <;> cases h
            case isTrue hlt =>
              exact ⟨rfl, Or.inr ⟨cur, rl, rkNew, rkCur, hm, hrp, hrkN, hrkC,
                Or.inl ⟨hlt, rfl⟩⟩⟩
            case isFalse hlt =>
              exact ⟨rfl, Or.inr ⟨cur, rl, rkNew, rkCur, hm, hrp, hrkN, hrkC,
                Or.inr ⟨hlt, rfl⟩⟩⟩

theorem inv0_init {pp : List (α × List α)} (hnd : (keys pp).Nodup) :
    Inv0 pp (initState pp) where
  nxt_keys := by simp [initState, keys]
  free_sub := by intro q hq; simpa [initState] using hq
  val_sub := by intro e he; simp [initState] at he
  free_nodup := hnd
  free_dis := by intro q _ r h; simp [initState, alook] at h
  rec_nodup := by simp [initState, keys]
  val_inj := by intro r r' q h; simp [initState, alook] at h
  cursor_le := by
    intro e he
    simp only [initState, List.mem_map] at he
    obtain ⟨p, _, rfl⟩ := he
    exact Nat.zero_le _
  matched_at := by intro e he; simp [initState] at he

theorem gsStep_inv0 {pp rp : List (α × List α)} {p : α} {rest : List α}
    {m : List (α × α)} {nx : List (α × Nat)} {st' : GSState α} {b : Bool}
    (inv : Inv0 pp ⟨p :: rest, m, nx⟩)
    (h : gsStep pp rp p rest m nx = .step st' b) : Inv0 pp st' := by
  have hfree : (p :: rest).Nodup := inv.free_nodup
  have hpnr : p ∉ rest := (List.nodup_cons.1 hfree).1
  have hrest : rest.Nodup := (List.nodup_cons.1 hfree).2
  have hpdis : ∀ r', alook r' m ≠ some p :=
    inv.free_dis p (List.mem_cons_self p rest)
  have hval_ne_p : ∀ e ∈ m, e.2 ≠ p := by
    intro e he heq
    exact hpdis e.1 (heq ▸ alook_of_mem_nodup inv.rec_nodup he)
  obtain ⟨prefs, c, hpp, hnx, hbr⟩ := gsStep_cases h
  have hppk : p ∈ keys pp := inv.free_sub p (List.mem_cons_self p rest)
  have hnxk : p ∈ keys nx := by
    have : keys nx = keys pp := inv.nxt_keys
    rw [this]; exact hppk
  rcases hbr with ⟨hget, rfl, rfl⟩ | ⟨r, hget, rfl, hbr⟩
  · -- cursor exhausted: the proposer is dropped
    exact {
      nxt_keys := inv.nxt_keys
      free_sub := fun q hq => inv.free_sub q (List.mem_cons_of_mem _ hq)
      val_sub := inv.val_sub
      free_nodup := hrest
      free_dis := fun q hq => inv.free_dis q (List.mem_cons_of_mem _ hq)
      rec_nodup := inv.rec_nodup
      val_inj := inv.val_inj
      cursor_le := inv.cursor_le
      matched_at := inv.matched_at }
  · have hclen : c < prefs.length := (List.get?_eq_some.1 hget).1
    have hc1 : c + 1 ≤ ((alook p pp).getD []).length := by
      rw [hpp]; exact hclen
    have hcursor : ∀ e ∈ aset p (c + 1) nx,
        e.2 ≤ ((alook e.1 pp).getD []).length := by
      intro e he
      rcases mem_aset he with rfl | he'
      · exact hc1
      · exact inv.cursor_le e he'
    have hnxtkeys : keys (aset p (c + 1) nx) = keys pp := by
      rw [keys_aset hnxk]; exact inv.nxt_keys
    have hnxold : ∀ q, q ≠ p → alook q (aset p (c + 1) nx) = alook q nx :=
      fun q hq => alook_aset_ne (fun hpq => hq hpq.symm)
    have hmat_old : ∀ e ∈ m, ∃ c' prefs', alook e.2 (aset p (c + 1) nx) = some c' ∧
        alook e.2 pp = some prefs' ∧ 1 ≤ c' ∧ prefs'.get? (c' - 1) = some e.1 := by
      intro e he
      obtain ⟨c', prefs', h1, h2, h3, h4⟩ := inv.matched_at e he
      exact ⟨c', prefs', by rw [hnxold e.2 (hval_ne_p e he)]; exact h1, h2, h3, h4⟩
    have hmat_new : ∃ c' prefs', alook ((r, p) : α × α).2 (aset p (c + 1) nx) = some c' ∧
        alook ((r, p) : α × α).2 pp = some prefs' ∧ 1 ≤ c' ∧
        prefs'.get? (c' - 1) = some ((r, p) : α × α).1 := by
      refine ⟨c + 1, prefs, alook_aset_self, hpp, Nat.le_add_left 1 c, ?_⟩
      simpa using hget
    rcases hbr with ⟨hm, rfl⟩ | ⟨cur, rl, rkNew, rkCur, hm, hrp, hrkN, hrkC, hbr⟩
    · -- receiver unmatched: tentatively accepted
      have hrk : r ∉ keys m := alook_eq_none_iff.1 hm
      have hmset : aset r p m = m ++ [(r, p)] := aset_of_not_mem hrk
      have hlookS : ∀ k v, alook k m = some v → alook k (aset r p m) = some v := by
        intro k v hk
        rw [hmset, alook_append, hk]
      have hlookN : ∀ k, alook k m = none →
          alook k (aset r p m) = if r = k then some p else none := by
        intro k hk
        rw [hmset, alook_append, hk]
        simp [alook]
      exact {
        nxt_keys := hnxtkeys
        free_sub := fun q hq => inv.free_sub q (List.mem_cons_of_mem _ hq)
        val_sub := by
          intro e he
          rw [hmset] at he
          rcases List.mem_append.1 he with he' | he'
          · exact inv.val_sub e he'
          · obtain rfl : e = (r, p) := by simpa using he'
            exact hppk
        free_nodup := hrest
        free_dis := by
          intro q hq r' hlk
          cases hml : alook r' m with
          | some v =>
            rw [hlookS r' v hml] at hlk
            exact inv.free_dis q (List.mem_cons_of_mem _ hq) r' (hml.trans hlk)
          | none =>
            rw [hlookN r' hml] at hlk
            split at hlk
            · have : p = q := by injection hlk
              exact hpnr (this ▸ hq)
            · cases hlk
        rec_nodup := by
          rw [hmset]
          simp only [keys, List.map_append, List.map_cons, List.map_nil]
          rw [List.nodup_append]
          refine ⟨inv.rec_nodup, List.nodup_singleton r, ?_⟩
          intro x hx hx'
          obtain rfl : x = r := by simpa using hx'
          exact hrk hx
        val_inj := by
          intro r1 r2 q h1 h2
          cases hm1 : alook r1 m with
          | some v1 =>
            rw [hlookS r1 v1 hm1] at h1
            cases hm2 : alook r2 m with
            | some v2 =>
              rw [hlookS r2 v2 hm2] at h2
              exact inv.val_inj r1 r2 q (hm1.trans h1) (hm2.trans h2)
            | none =>
              rw [hlookN r2 hm2] at h2
              split at h2
              · have hqp : p = q := by injection h2
                exact absurd (hm1.trans h1) (hqp ▸ hpdis r1)
              · cases h2
          | none =>
            rw [hlookN r1 hm1] at h1
            split at h1
            case isTrue hr1 =>
              have hqp : p = q := by injection h1
              cases hm2 : alook r2 m with
              | some v2 =>
                rw [hlookS r2 v2 hm2] at h2
                exact absurd (hm2.trans h2) (hqp ▸ hpdis r2)
              | none =>
                rw [hlookN r2 hm2] at h2
                split at h2
                case isTrue hr2 => rw [← hr1, ← hr2]
                case isFalse hr2 => cases h2
            case isFalse hr1 => cases h1
        cursor_le := hcursor
        matched_at := by
          intro e he
          rw [hmset] at he
          rcases List.mem_append.1 he with he' | he'
          · exact hmat_old e he'
          · obtain rfl : e = (r, p) := by simpa using he'
            exact hmat_new }
    · -- receiver already matched
      have hpcur : p ≠ cur := by
        rintro rfl
        exact hpdis r hm
      have hrm : r ∈ keys m := alook_isSome_iff.1 (by simp [hm])
      have hcurk : cur ∈ keys pp := inv.val_sub (r, cur) (alook_mem hm)
      rcases hbr with ⟨hlt, rfl⟩ | ⟨hlt, rfl⟩
      · -- new proposer preferred: displace the current one
        have hlook : ∀ k, alook k (aset r p m) =
            if r = k then some p else alook k m := by
          intro k
          by_cases hk : r = k
          · subst hk; simp [alook_aset_self]
          · rw [alook_aset_ne hk]
            simp [hk]
        exact {
          nxt_keys := hnxtkeys
          free_sub := by
            intro q hq
            rcases List.mem_append.1 hq with hq' | hq'
            · exact inv.free_sub q (List.mem_cons_of_mem _ hq')
            · obtain rfl : q = cur := by simpa using hq'
              exact hcurk
          val_sub := by
            intro e he
            rcases mem_aset he with rfl | he'
            · exact hppk
            · exact inv.val_sub e he'
          free_nodup := by
            rw [List.nodup_append]
            refine ⟨hrest, List.nodup_singleton cur, ?_⟩
            intro x hx hx'
            obtain rfl : x = cur := by simpa using hx'
            exact inv.free_dis x (List.mem_cons_of_mem _ hx) r hm
          free_dis := by
            intro q hq r' hlk
            rw [hlook r'] at hlk
            split at hlk
            case isTrue hr' =>
              have hqp : p = q := by injection hlk
              rcases List.mem_append.1 hq with hq' | hq'
              · exact hpnr (hqp ▸ hq')
              · obtain rfl : q = cur := by simpa using hq'
                exact hpcur hqp
            case isFalse hr' =>
              rcases List.mem_append.1 hq with hq' | hq'
              · exact inv.free_dis q (List.mem_cons_of_mem _ hq') r' hlk
              · obtain rfl : q = cur := by simpa using hq'
                exact hr' (inv.val_inj r r' q hm hlk)
          rec_nodup := by
            rw [keys_aset hrm]; exact inv.rec_nodup
          val_inj := by
            intro r1 r2 q h1 h2
            rw [hlook r1] at h1
            rw [hlook r2] at h2
            split at h1
            case isTrue hr1 =>
              have hq1 : p = q := by injection h1
              split at h2
              case isTrue hr2 => rw [← hr1, ← hr2]
              case isFalse hr2 => exact absurd h2 (hq1 ▸ hpdis r2)
            case isFalse hr1 =>
              split at h2
              case isTrue hr2 =>
                have hq2 : p = q := by injection h2
                exact absurd h1 (hq2 ▸ hpdis r1)
              case isFalse hr2 => exact inv.val_inj r1 r2 q h1 h2
          cursor_le := hcursor
          matched_at := by
            intro e he
            rcases mem_aset he with rfl | he'
            · exact hmat_new
            · exact hmat_old e he' }
      · -- current proposer kept: p re-enters the queue
        exact {
          nxt_keys := hnxtkeys
          free_sub := by
            intro q hq
            rcases List.mem_append.1 hq with hq' | hq'
            · exact inv.free_sub q (List.mem_cons_of_mem _ hq')
            · obtain rfl : q = p := by simpa using hq'
              exact hppk
          val_sub := inv.val_sub
          free_nodup := by
            rw [List.nodup_append]
            refine ⟨hrest, List.nodup_singleton p, ?_⟩
            intro x hx hx'
            obtain rfl : x = p := by simpa using hx'
            exact hpnr hx
          free_dis := by
            intro q hq r' hlk
            rcases List.mem_append.1 hq with hq' | hq'
            · exact inv.free_dis q (List.mem_cons_of_mem _ hq') r' hlk
            · obtain rfl : q = p := by simpa using hq'
              exact hpdis r' hlk
          rec_nodup := inv.rec_nodup
          val_inj := inv.val_inj
          cursor_le := hcursor
          matched_at := fun e he => hmat_old e he }

theorem receivers_rank_ex {pp rp : List (α × List α)}
    (H : ReceiversRankProposers pp rp) {e : α × List α} (he : e ∈ pp)
    {r : α} (hr : r ∈ e.2) :
    ∃ rl, alook r rp = some rl ∧ ∀ f ∈ pp, r ∈ f.2 → f.1 ∈ rl := by
  obtain ⟨hsome, hall⟩ := H e he r hr
  obtain ⟨rl, hrl⟩ := Option.isSome_iff_exists.1 hsome
  refine ⟨rl, hrl, ?_⟩
  intro f hf hrf
  have := hall f hf hrf
  rw [hrl] at this
  exact this

theorem gsStep_no_crash {pp rp : List (α × List α)} {p : α} {rest : List α}
    {m : List (α × α)} {nx : List (α × Nat)}
    (inv : Inv0 pp ⟨p :: rest, m, nx⟩) (H : ReceiversRankProposers pp rp) :
    ∃ st' b, gsStep pp rp p rest m nx = .step st' b := by
  have hppk : p ∈ keys pp := inv.free_sub p (List.mem_cons_self p rest)
  obtain ⟨prefs, hpp⟩ := Option.isSome_iff_exists.1 (alook_isSome_iff.2 hppk)
  have hnxk : p ∈ keys nx := by
    have hk : keys nx = keys pp := inv.nxt_keys
    rw [hk]; exact hppk
  obtain ⟨c, hnx⟩ := Option.isSome_iff_exists.1 (alook_isSome_iff.2 hnxk)
  rw [gsStep]
  simp only [hpp, hnx]
  cases hget : prefs.get? c with
  | none => exact ⟨_, _, rfl⟩
  | some r =>
    simp only []
    cases hm : alook r m with
    | none => exact ⟨_, _, rfl⟩
    | some cur =>
      have hrmem : r ∈ prefs := List.get?_mem hget
      obtain ⟨rl, hrp, hrl⟩ := receivers_rank_ex H (alook_mem hpp) hrmem
      have hprl : p ∈ rl := hrl (p, prefs) (alook_mem hpp) hrmem
      obtain ⟨rkNew, hrkN⟩ :=
        Option.isSome_iff_exists.1 (enumRank_isSome_iff.2 hprl)
      obtain ⟨c', pcur, _, hcurpp, _, hcget⟩ := inv.matched_at (r, cur) (alook_mem hm)
      have hrcur : r ∈ pcur := List.get?_mem hcget
      have hcrl : cur ∈ rl := hrl (cur, pcur) (alook_mem hcurpp) hrcur
      obtain ⟨rkCur, hrkC⟩ :=
        Option.isSome_iff_exists.1 (enumRank_isSome_iff.2 hcrl)
      simp only [hrp, hrkN, hrkC]
      by_cases hlt : rkNew < rkCur
      · rw [if_pos hlt]; exact ⟨_, _, rfl⟩
      · rw [if_neg hlt]; exact ⟨_, _, rfl⟩

theorem gsStep_remaining {pp rp : List (α × List α)} {p : α} {rest : List α}
    {m : List (α × α)} {nx : List (α × Nat)} {st' : GSState α} {b : Bool}
    (h : gsStep pp rp p rest m nx = .step st' b) :
    remaining pp st'.nxt + (if b then 1 else 0) = remaining pp nx := by
  obtain ⟨prefs, c, hpp, hnx, hbr⟩ := gsStep_cases h
  have hrem : ∀ r0 : α, prefs.get? c = some r0 →
      remaining pp (aset p (c + 1) nx) + 1 = remaining pp nx := by
    intro r0 hr0
    refine remaining_aset hnx ?_
    rw [hpp]
    exact (List.get?_eq_some.1 hr0).1
  rcases hbr with ⟨hget, rfl, rfl⟩ | ⟨r, hget, rfl, hbr⟩
  · simp
  · rcases hbr with ⟨hm, rfl⟩ | ⟨cur, rl, rkNew, rkCur, hm, hrp, hrkN, hrkC, hbr⟩
    · simpa using hrem r hget
    · rcases hbr with ⟨hlt, rfl⟩ | ⟨hlt, rfl⟩ <;> simpa using hrem r hget

theorem gsStep_measure {pp rp : List (α × List α)} {p : α} {rest : List α}
    {m : List (α × α)} {nx : List (α × Nat)} {st' : GSState α} {b : Bool}
    (h : gsStep pp rp p rest m nx = .step st' b) :
    gsMeasure pp st' < gsMeasure pp ⟨p :: rest, m, nx⟩ := by
  have hrem := gsStep_remaining h
  obtain ⟨prefs, c, hpp, hnx, hbr⟩ := gsStep_cases h
  rcases hbr with ⟨hget, rfl, rfl⟩ | ⟨r, hget, rfl, hbr⟩
  · simp only [gsMeasure, List.length_cons]
    omega
  · have hfree : st'.free.length ≤ rest.length + 1 := by
      rcases hbr with ⟨hm, rfl⟩ | ⟨cur, rl, rkNew, rkCur, hm, hrp, hrkN, hrkC, hbr⟩
      · simp
      · rcases hbr with ⟨hlt, rfl⟩ | ⟨hlt, rfl⟩ <;> simp
    simp only [if_pos] at hrem
    simp only [gsMeasure, List.length_cons]
    omega

/-- With enough fuel and a key-error-free input, the loop completes, and the
number of proposal attempts is bounded by the proposals still available. -/
theorem gsRun_progress {pp rp : List (α × List α)}
    (H : ReceiversRankProposers pp rp) :
    ∀ (fuel : Nat) (st : GSState α) (cnt : Nat), Inv0 pp st →
      gsMeasure pp st ≤ fuel →
      ∃ res fc, gsRun pp rp fuel st cnt = some (res, fc) ∧
        fc ≤ cnt + remaining pp st.nxt := by
  intro fuel
  induction fuel with
  | zero =>
    intro st cnt inv hle
    obtain ⟨free, m, nx⟩ := st
    cases free with
    | nil => exact ⟨_, _, rfl, Nat.le_add_right _ _⟩
    | cons p rest =>
      exfalso
      simp [gsMeasure] at hle
  | succ fuel ih =>
    intro st cnt inv hle
    obtain ⟨free, m, nx⟩ := st
    cases free with
    | nil => exact ⟨_, _, rfl, Nat.le_add_right _ _⟩
    | cons p rest =>
      obtain ⟨st', b, hstep⟩ := gsStep_no_crash inv H
      have inv' := gsStep_inv0 inv hstep
      have hmeas := gsStep_measure hstep
      have hrem := gsStep_remaining hstep
      have hle' : gsMeasure pp st' ≤ fuel := by
        have := gsMeasure pp ⟨p :: rest, m, nx⟩
        omega
      obtain ⟨res, fc, hrun, hfc⟩ :=
        ih st' (if b then cnt + 1 else cnt) inv' hle'
      refine ⟨res, fc, ?_, ?_⟩
      · rw [gsRun, hstep]
        exact hrun
      · cases b <;> simp at hrem hfc ⊢ <;> omega

omit [DecidableEq α] in
theorem length_le_maxPrefLen {pp : List (α × List α)} {e : α × List α}
    (h : e ∈ pp) : e.2.length ≤ maxPrefLen pp := by
  induction pp with
  | nil => simp at h
  | cons f pp ih =>
    rcases List.mem_cons.1 h with rfl | h'
    · exact le_max_left _ _
    · exact le_trans (ih h') (le_max_right _ _)

omit [DecidableEq α] in
theorem sum_lens_le {pp : List (α × List α)} :
    (pp.map (fun e => e.2.length)).sum ≤ pp.length * maxPrefLen pp := by
  have h := List.sum_le_card_nsmul (pp.map (fun e => e.2.length))
    (maxPrefLen pp) ?_
  · simpa [smul_eq_mul] using h
  · intro x hx
    obtain ⟨e, he, rfl⟩ := List.mem_map.1 hx
    exact length_le_maxPrefLen he

theorem remaining_init {pp : List (α × List α)} (hnd : (keys pp).Nodup) :
    remaining pp ((keys pp).map (fun p => (p, 0))) =
      (pp.map (fun e => e.2.length)).sum := by
  have hmap : remaining pp ((keys pp).map (fun p => (p, 0))) =
      ((keys pp).map (fun p => ((alook p pp).getD []).length)).sum := by
    simp [remaining, List.map_map, Function.comp_def]
  rw [hmap]
  clear hmap
  induction pp with
  | nil => simp [keys]
  | cons e pp ih =>
    simp only [keys, List.map_cons, List.nodup_cons] at hnd ⊢
    rw [List.sum_cons]
    have h1 : ((alook e.1 (e :: pp)).getD []).length = e.2.length := by
      simp [alook]
    have h2 : (keys pp).map (fun p => ((alook p (e :: pp)).getD []).length) =
        (keys pp).map (fun p => ((alook p pp).getD []).length) := by
      refine List.map_congr_left ?_
      intro p hp
      have hne : e.1 ≠ p := fun h => hnd.1 (h ▸ hp)
      rw [alook_cons_ne hne]
    simp only [keys] at h2
    have ih' := ih hnd.2
    simp only [keys] at ih'
    rw [h1, h2, ih', List.sum_cons]

/-- Master run lemma: on a valid dictionary input whose receivers rank every
proposer that may propose to them, `GaleShapley.match` completes without a
`KeyError`, and the number of proposal attempts is at most the number of
proposers times the longest preference list. -/
theorem matchRun_total {pp rp : List (α × List α)} (hnd : (keys pp).Nodup)
    (H : ReceiversRankProposers pp rp) :
    ∃ res cnt, matchRun pp rp = some (res, cnt) ∧
      cnt ≤ pp.length * maxPrefLen pp := by
  have hinit := inv0_init hnd
  have hmeas : gsMeasure pp (initState pp) ≤ fuel0 pp := by
    simp only [gsMeasure, initState, fuel0]
    rw [remaining_init hnd]
    simp [keys]
  obtain ⟨res, fc, hrun, hfc⟩ :=
    gsRun_progress H (fuel0 pp) (initState pp) 0 hinit hmeas
  refine ⟨res, fc, hrun, ?_⟩
  calc fc ≤ 0 + remaining pp (initState pp).nxt := hfc
    _ = (pp.map (fun e => e.2.length)).sum := by
        simp only [initState, Nat.zero_add]
        exact remaining_init hnd
    _ ≤ pp.length * maxPrefLen pp := sum_lens_le

theorem alook_map_zero {l : List α} {q : α} {c : Nat}
    (h : alook q (l.map (fun p => (p, (0 : Nat)))) = some c) : c = 0 := by
  induction l with
  | nil => simp [alook] at h
  | cons k ks ih =>
    simp only [List.map_cons, alook] at h
    split at h
    · injection h with h1
      omega
    · exact ih h

theorem proposed_init {pp rp : List (α × List α)} :
    Proposed pp rp (initState pp) := by
  intro q c hq i hi r hr
  exfalso
  have hc : c = 0 := alook_map_zero hq
  omega

theorem gsStep_proposed {pp rp : List (α × List α)} {p : α} {rest : List α}
    {m : List (α × α)} {nx : List (α × Nat)} {st' : GSState α} {b : Bool}
    (H : ReceiversRankProposers pp rp)
    (hp : Proposed pp rp ⟨p :: rest, m, nx⟩)
    (h : gsStep pp rp p rest m nx = .step st' b) : Proposed pp rp st' := by
  obtain ⟨prefs, c, hpp, hnx, hbr⟩ := gsStep_cases h
  rcases hbr with ⟨hget, rfl, rfl⟩ | ⟨r, hget, rfl, hbr⟩
  · exact hp
  · have hrmem : r ∈ prefs := List.get?_mem hget
    have hnew : ∀ q c', alook q (aset p (c + 1) nx) = some c' →
        (q = p ∧ c' = c + 1) ∨ (q ≠ p ∧ alook q nx = some c') := by
      intro q c' hq
      by_cases hqp : q = p
      · subst hqp
        rw [alook_aset_self] at hq
        injection hq with h1
        exact Or.inl ⟨rfl, h1.symm⟩
      · rw [alook_aset_ne (fun hpq => hqp hpq.symm)] at hq
        exact Or.inr ⟨hqp, hq⟩
    have hself : ∀ r0, ((alook p pp).getD []).get? c = some r0 → r0 = r := by
      intro r0 h0
      rw [hpp] at h0
      simp only [Option.getD_some] at h0
      rw [hget] at h0
      injection h0 with h1
      exact h1.symm
    rcases hbr with ⟨hm, rfl⟩ | ⟨cur, rl, rkNew, rkCur, hm, hrp, hrkN, hrkC, hbr⟩
    · -- receiver was unmatched and now tentatively holds p
      have hrk : r ∉ keys m := alook_eq_none_iff.1 hm
      have hmset : aset r p m = m ++ [(r, p)] := aset_of_not_mem hrk
      have hlookS : ∀ k v, alook k m = some v → alook k (aset r p m) = some v := by
        intro k v hk
        rw [hmset, alook_append, hk]
      have hself2 : alook r (aset r p m) = some p := alook_aset_self
      obtain ⟨rl, hrp, hrl⟩ := receivers_rank_ex H (alook_mem hpp) hrmem
      have hprl : p ∈ rl := hrl (p, prefs) (alook_mem hpp) hrmem
      obtain ⟨rkNew, hrkN⟩ :=
        Option.isSome_iff_exists.1 (enumRank_isSome_iff.2 hprl)
      intro q c' hq i hi r' hr'
      rcases hnew q c' hq with ⟨hqp, hc⟩ | ⟨hqp, hq'⟩
      · subst hqp
        subst hc
        rcases Nat.lt_succ_iff_lt_or_eq.1 hi with hic | rfl
        · obtain ⟨p', rl', kp, kq, h1, h2, h3, h4, h5⟩ := hp q c hnx i hic r' hr'
          exact ⟨p', rl', kp, kq, hlookS r' p' h1, h2, h3, h4, h5⟩
        · obtain rfl : r' = r := hself r' hr'
          exact ⟨q, rl, rkNew, rkNew, hself2, hrp, hrkN, hrkN, le_refl _⟩
      · obtain ⟨p', rl', kp, kq, h1, h2, h3, h4, h5⟩ := hp q c' hq' i hi r' hr'
        exact ⟨p', rl', kp, kq, hlookS r' p' h1, h2, h3, h4, h5⟩
    · rcases hbr with ⟨hlt, rfl⟩ | ⟨hlt, rfl⟩
      · -- displacement: the receiver upgrades from cur to p
        have hlookA : ∀ k, alook k (aset r p m) =
            if r = k then some p else alook k m := by
          intro k
          by_cases hk : r = k
          · subst hk; simp [alook_aset_self]
          · rw [alook_aset_ne hk]
            simp [hk]
        have hmain : ∀ q0 c0, alook q0 nx = some c0 → ∀ i0, i0 < c0 → ∀ r0,
            ((alook q0 pp).getD []).get? i0 = some r0 →
            ∃ p' rl' kp kq, alook r0 (aset r p m) = some p' ∧
              alook r0 rp = some rl' ∧ enumRank rl' p' = some kp ∧
              enumRank rl' q0 = some kq ∧ kp ≤ kq := by
          intro q0 c0 hq0 i0 hi0 r0 hr0
          obtain ⟨p', rl', kp, kq, h1, h2, h3, h4, h5⟩ := hp q0 c0 hq0 i0 hi0 r0 hr0
          by_cases hr0r : r0 = r
          · subst hr0r
            have e2 : rl' = rl := by
              rw [hrp] at h2
              injection h2 with h6
              exact h6.symm
            have e3 : kp = rkCur := by
              have e1 : p' = cur := by
                rw [hm] at h1
                injection h1 with h6
                exact h6.symm
              rw [e1, e2, hrkC] at h3
              injection h3 with h6
              exact h6.symm
            refine ⟨p, rl, rkNew, kq, ?_, hrp, hrkN, ?_, ?_⟩
            · rw [hlookA]
              simp
            · rw [← e2]
              exact h4
            · exact le_of_lt (lt_of_lt_of_le hlt (e3 ▸ h5))
          · refine ⟨p', rl', kp, kq, ?_, h2, h3, h4, h5⟩
            rw [hlookA, if_neg (fun h6 => hr0r h6.symm)]
            exact h1
        intro q c' hq i hi r' hr'
        rcases hnew q c' hq with ⟨hqp, hc⟩ | ⟨hqp, hq'⟩
        · subst hqp
          subst hc
          rcases Nat.lt_succ_iff_lt_or_eq.1 hi with hic | rfl
          · exact hmain q c hnx i hic r' hr'
          · obtain rfl : r' = r := hself r' hr'
            refine ⟨q, rl, rkNew, rkNew, ?_, hrp, hrkN, hrkN, le_refl _⟩
            rw [hlookA]
            simp
        · exact hmain q c' hq' i hi r' hr'
      · -- rejection: the receiver keeps cur, p re-enters the queue
        intro q c' hq i hi r' hr'
        rcases hnew q c' hq with ⟨hqp, hc⟩ | ⟨hqp, hq'⟩
        · subst hqp
          subst hc
          rcases Nat.lt_succ_iff_lt_or_eq.1 hi with hic | rfl
          · exact hp q c hnx i hic r' hr'
          · obtain rfl : r' = r := hself r' hr'
            exact ⟨cur, rl, rkCur, rkNew, hm, hrp, hrkC, hrkN, le_of_not_lt hlt⟩
        · exact hp q c' hq' i hi r' hr'

/-- Like `gsRun_progress`, but tracking the final state: a completed run
ends with an empty queue, all invariants holding, and returns the final
matches flipped. -/
theorem gsRun_final {pp rp : List (α × List α)} :
    ∀ (fuel : Nat) (st : GSState α) (cnt : Nat) {res : List (α × α)} {fc : Nat},
      Inv0 pp st → gsRun pp rp fuel st cnt = some (res, fc) →
      ∃ stf : GSState α, Inv0 pp stf ∧ stf.free = [] ∧
        res = stf.cm.map (fun e => (e.2, e.1)) := by
  intro fuel
  induction fuel with
  | zero =>
    intro st cnt res fc inv hrun
    obtain ⟨free, m, nx⟩ := st
    cases free with
    | nil =>
      rw [gsRun] at hrun
      injection hrun with h1
      exact ⟨⟨[], m, nx⟩, inv, rfl, (congrArg Prod.fst h1).symm⟩
    | cons p rest => cases hrun
  | succ fuel ih =>
    intro st cnt res fc inv hrun
    obtain ⟨free, m, nx⟩ := st
    cases free with
    | nil =>
      rw [gsRun] at hrun
      injection hrun with h1
      exact ⟨⟨[], m, nx⟩, inv, rfl, (congrArg Prod.fst h1).symm⟩
    | cons p rest =>
      rw [gsRun] at hrun
      cases hstep : gsStep pp rp p rest m nx with
      | crash => rw [hstep] at hrun; cases hrun
      | step st' b =>
        rw [hstep] at hrun
        exact ih st' _ (gsStep_inv0 inv hstep) hrun

/-- Like `gsRun_final`, but also carrying the `Proposed` history invariant. -/
theorem gsRun_finalS {pp rp : List (α × List α)}
    (H : ReceiversRankProposers pp rp) :
    ∀ (fuel : Nat) (st : GSState α) (cnt : Nat) {res : List (α × α)} {fc : Nat},
      Inv0 pp st → Proposed pp rp st →
      gsRun pp rp fuel st cnt = some (res, fc) →
      ∃ stf : GSState α, Inv0 pp stf ∧ Proposed pp rp stf ∧ stf.free = [] ∧
        res = stf.cm.map (fun e => (e.2, e.1)) := by
  intro fuel
  induction fuel with
  | zero =>
    intro st cnt res fc inv hprop hrun
    obtain ⟨free, m, nx⟩ := st
    cases free with
    | nil =>
      rw [gsRun] at hrun
      injection hrun with h1
      exact ⟨⟨[], m, nx⟩, inv, hprop, rfl, (congrArg Prod.fst h1).symm⟩
    | cons p rest => cases hrun
  | succ fuel ih =>
    intro st cnt res fc inv hprop hrun
    obtain ⟨free, m, nx⟩ := st
    cases free with
    | nil =>
      rw [gsRun] at hrun
      injection hrun with h1
      exact ⟨⟨[], m, nx⟩, inv, hprop, rfl, (congrArg Prod.fst h1).symm⟩
    | cons p rest =>
      rw [gsRun] at hrun
      cases hstep : gsStep pp rp p rest m nx with
      | crash => rw [hstep] at hrun; cases hrun
      | step st' b =>
        rw [hstep] at hrun
        exact ih st' _ (gsStep_inv0 inv hstep)
          (gsStep_proposed H hprop hstep) hrun

end GaleShapley

namespace Matcher

theorem checkRowList_nil {lp : List (α × List α)} {b2l l2b : List (α × α)}
    {bprefs : List α} {b : α} {ls : List α}
    (h : ∀ l ∈ ls, checkPairList lp b2l l2b bprefs b l = some false) :
    checkRowList lp b2l l2b bprefs b ls = some [] := by
  induction ls with
  | nil => rfl
  | cons l ls ih =>
    rw [checkRowList, h l (List.mem_cons_self _ _),
      ih (fun x hx => h x (List.mem_cons_of_mem _ hx))]
    rfl

theorem checkRowsList_nil {lp : List (α × List α)} {b2l l2b : List (α × α)}
    {bp : List (α × List α)}
    (h : ∀ e ∈ bp, ∀ l ∈ e.2, checkPairList lp b2l l2b e.2 e.1 l = some false) :
    checkRowsList lp b2l l2b bp = some [] := by
  induction bp with
  | nil => rfl
  | cons e es ih =>
    rw [checkRowsList, checkRowList_nil (h e (List.mem_cons_self _ _)),
      ih (fun f hf => h f (List.mem_cons_of_mem _ hf))]
    rfl

omit [DecidableEq α] in
theorem count_eq_one_ex {x : α → α → Bool} {b : α} {ls : List α}
    (h : rowCount x b ls = 1) :
    ∃ l0 ∈ ls, x b l0 = true ∧ ∀ l' ∈ ls, x b l' = true → l' = l0 := by
  rw [rowCount] at h
  obtain ⟨l0, hl0⟩ := List.length_eq_one.1 h
  have hmem : l0 ∈ ls.filter (fun l => x b l) := by
    rw [hl0]; exact List.mem_singleton_self _
  rw [List.mem_filter] at hmem
  refine ⟨l0, hmem.1, hmem.2, ?_⟩
  intro l' hl' hx
  have : l' ∈ ls.filter (fun l => x b l) := List.mem_filter.2 ⟨hl', hx⟩
  rw [hl0] at this
  exact List.mem_singleton.1 this

omit [DecidableEq α] in
theorem count_eq_zero_iff {x : α → α → Bool} {b : α} {ls : List α} :
    rowCount x b ls = 0 ↔ ∀ l' ∈ ls, x b l' = false := by
  rw [rowCount, List.length_eq_zero, List.filter_eq_nil_iff]
  constructor
  · intro h l' hl'
    by_contra hx
    exact h l' hl' (by simpa using Bool.not_eq_false _ ▸ hx)
  · intro h l' hl'
    simp [h l' hl']

omit [DecidableEq α] in
theorem count_pos_ex {x : α → α → Bool} {b : α} {ls : List α}
    (h : 1 ≤ rowCount x b ls) : ∃ l' ∈ ls, x b l' = true := by
  rw [rowCount] at h
  have : ls.filter (fun l => x b l) ≠ [] := by
    intro hnil
    rw [hnil] at h
    simp at h
  obtain ⟨l', hl'⟩ := List.exists_mem_of_ne_nil _ this
  rw [List.mem_filter] at hl'
  exact ⟨l', hl'.1, hl'.2⟩

omit [DecidableEq α] in
theorem filter_eq_single {p : α → Bool} {ls : List α} (hnd : ls.Nodup)
    {l0 : α} (h0 : l0 ∈ ls) (hx : p l0 = true)
    (huniq : ∀ l' ∈ ls, p l' = true → l' = l0) : ls.filter p = [l0] := by
  induction ls with
  | nil => simp at h0
  | cons a ls ih =>
    simp only [List.nodup_cons] at hnd
    rcases List.mem_cons.1 h0 with rfl | h0'
    · rw [List.filter_cons_of_pos hx]
      have hnil : ls.filter p = [] := by
        rw [List.filter_eq_nil_iff]
        intro c hc hpc
        exact hnd.1 ((huniq c (List.mem_cons_of_mem _ hc) (by simpa using hpc)) ▸ hc)
      rw [hnil]
    · have ha : ¬ p a = true := by
        intro h
        exact hnd.1 ((huniq a (List.mem_cons_self _ _) h) ▸ h0')
      rw [List.filter_cons_of_neg (by simpa using ha)]
      exact ih hnd.2 h0' (fun lq hlq hp => huniq lq (List.mem_cons_of_mem _ hlq) hp)

omit [DecidableEq α] in
theorem count_one_of_unique {x : α → α → Bool} {b : α} {ls : List α}
    (hnd : ls.Nodup) {l0 : α} (h0 : l0 ∈ ls) (hx : x b l0 = true)
    (huniq : ∀ l' ∈ ls, x b l' = true → l' = l0) : rowCount x b ls = 1 := by
  rw [rowCount, filter_eq_single hnd h0 hx huniq]
  rfl

/-- On a strict-total-order input, the constraint system of `build_model` is
satisfied by an assignment of the decision variables exactly when it selects
a perfect matching with no blocking pair. -/
theorem build_model_iff {bigs littles : List α} {bp lp : α → List α}
    (h : StrictTotalOrderLists bigs littles bp lp) (x : α → α → Bool) :
    BuildModelFeasible bigs littles bp lp x ↔
      SpecPerfectMatching bigs littles x ∧ SpecStable bigs littles bp lp x := by
  obtain ⟨hbnd, hlnd, hbl, hll⟩ := h
  constructor
  · rintro ⟨nm, bwb, lwb, hrow, hcol, hcons⟩
    refine ⟨⟨hrow, hcol⟩, ?_⟩
    rintro b hb l hl ⟨hxbl, ⟨l0, hl0, hxl0, hpref⟩, ⟨b0, hb0, hxb0, hprefL⟩⟩
    obtain ⟨h1, h2, h3, h4, h5⟩ := hcons b hb l hl
    have hnm : nm b l = true := by
      cases hn : nm b l
      · rw [h2 hn] at hxbl; cases hxbl
      · rfl
    have h5' : bwb b l = true ∨ lwb b l = true := by
      rcases h5 with h5 | h5 | h5
      · rw [hnm] at h5; cases h5
      · exact Or.inl h5
      · exact Or.inr h5
    obtain ⟨lpart, hlpart, hxlpart, huniqb⟩ := count_eq_one_ex (hrow b hb)
    obtain rfl : l0 = lpart := huniqb l0 hl0 hxl0
    obtain ⟨bpart, hbpart, hxbpart, huniql⟩ :=
      @count_eq_one_ex α (fun u v => x v u) l bigs (hcol l hl)
    obtain rfl : b0 = bpart := huniql b0 hb0 hxb0
    rcases h5' with hbwb | hlwb
    · by_cases hpe : preferredLittles bp littles b l = []
      · rw [if_neg (fun hne => hne hpe)] at h3
        rw [h3] at hbwb
        cases hbwb
      · rw [if_pos hpe] at h3
        obtain ⟨lq, hlq, hxlq⟩ := count_pos_ex (h3.1 hbwb)
        rw [preferredLittles, List.mem_filter] at hlq
        obtain rfl : lq = l0 := huniqb lq hlq.1 hxlq
        have := of_decide_eq_true hlq.2
        omega
    · by_cases hpe : preferredBigs lp bigs l b = []
      · rw [if_neg (fun hne => hne hpe)] at h4
        rw [h4] at hlwb
        cases hlwb
      · rw [if_pos hpe] at h4
        obtain ⟨bq, hbq, hxbq⟩ :=
          @count_pos_ex α (fun u v => x v u) l (preferredBigs lp bigs l b) (h4.1 hlwb)
        rw [preferredBigs, List.mem_filter] at hbq
        obtain rfl : bq = b0 := huniql bq hbq.1 hxbq
        have := of_decide_eq_true hbq.2
        omega
  · rintro ⟨⟨hrow, hcol⟩, hstab⟩
    refine ⟨fun b l => !(x b l),
      fun b l => decide (1 ≤ rowCount x b (preferredLittles bp littles b l)),
      fun b l => decide (1 ≤ colCount x l (preferredBigs lp bigs l b)),
      hrow, hcol, ?_⟩
    intro b hb l hl
    refine ⟨?_, ?_, ?_, ?_, ?_⟩
    · intro hn
      replace hn : (!x b l) = true := hn
      cases hx : x b l
      · rfl
      · rw [hx] at hn; cases hn
    · intro hn
      replace hn : (!x b l) = false := hn
      cases hx : x b l
      · rw [hx] at hn; cases hn
      · rfl
    · by_cases hpe : preferredLittles bp littles b l = []
      · rw [if_neg (fun hne => hne hpe)]
        show decide (1 ≤ rowCount x b (preferredLittles bp littles b l)) = false
        rw [hpe]
        rfl
      · rw [if_pos hpe]
        refine ⟨fun hd => of_decide_eq_true hd, fun hd => ?_⟩
        have := of_decide_eq_false hd
        omega
    · by_cases hpe : preferredBigs lp bigs l b = []
      · rw [if_neg (fun hne => hne hpe)]
        show decide (1 ≤ colCount x l (preferredBigs lp bigs l b)) = false
        rw [hpe]
        rfl
      · rw [if_pos hpe]
        refine ⟨fun hd => of_decide_eq_true hd, fun hd => ?_⟩
        have := of_decide_eq_false hd
        omega
    · cases hx : x b l
      · by_cases hc1 : 1 ≤ rowCount x b (preferredLittles bp littles b l)
        · exact Or.inr (Or.inl (decide_eq_true hc1))
        by_cases hc2 : 1 ≤ colCount x l (preferredBigs lp bigs l b)
        · exact Or.inr (Or.inr (decide_eq_true hc2))
        exfalso
        have hz1 : rowCount x b (preferredLittles bp littles b l) = 0 := by omega
        have hz2 : colCount x l (preferredBigs lp bigs l b) = 0 := by omega
        obtain ⟨l0, hl0, hxl0, huniqb⟩ := count_eq_one_ex (hrow b hb)
        obtain ⟨b0, hb0, hxb0, huniql⟩ :=
          @count_eq_one_ex α (fun u v => x v u) l bigs (hcol l hl)
        have hlne : l ≠ l0 := by
          rintro rfl
          rw [hx] at hxl0
          cases hxl0
        have hbne : b ≠ b0 := by
          rintro rfl
          rw [hx] at hxb0
          cases hxb0
        have hlmem : l ∈ bp b := (hbl b hb).2.2 l hl
        have hl0mem : l0 ∈ bp b := (hbl b hb).2.2 l0 hl0
        have hidxne : (bp b).indexOf l ≠ (bp b).indexOf l0 :=
          fun he => hlne ((List.indexOf_inj hlmem hl0mem).1 he)
        have hnotin : ¬ (bp b).indexOf l0 < (bp b).indexOf l := by
          intro hlt
          have : l0 ∈ preferredLittles bp littles b l :=
            List.mem_filter.2 ⟨hl0, decide_eq_true hlt⟩
          have hxf : x b l0 = false := count_eq_zero_iff.1 hz1 l0 this
          rw [hxf] at hxl0
          cases hxl0
        have hblt : (bp b).indexOf l < (bp b).indexOf l0 := by omega
        have hbmem : b ∈ lp l := (hll l hl).2.2 b hb
        have hb0mem : b0 ∈ lp l := (hll l hl).2.2 b0 hb0
        have hidxne2 : (lp l).indexOf b ≠ (lp l).indexOf b0 :=
          fun he => hbne ((List.indexOf_inj hbmem hb0mem).1 he)
        have hnotin2 : ¬ (lp l).indexOf b0 < (lp l).indexOf b := by
          intro hlt
          have hmf : b0 ∈ preferredBigs lp bigs l b :=
            List.mem_filter.2 ⟨hb0, decide_eq_true hlt⟩
          have hz2a : rowCount (fun u v => x v u) l
              (preferredBigs lp bigs l b) = 0 := hz2
          have hz2' : ∀ q ∈ preferredBigs lp bigs l b,
              (fun u v => x v u) l q = false :=
            count_eq_zero_iff.1 hz2a
          have := hz2' b0 hmf
          simp only at this
          rw [this] at hxb0
          cases hxb0
        have hllt : (lp l).indexOf b < (lp l).indexOf b0 := by omega
        exact hstab b hb l hl ⟨hx, ⟨l0, hl0, hxl0, hblt⟩, ⟨b0, hb0, hxb0, hllt⟩⟩
      · refine Or.inl ?_
        show (!x b l) = false
        rw [hx]
        rfl

theorem mem_potentialRow {l2b : List (α × α)} {bl b : α}
    {lp : List (α × List (α × Nat))} {b' l : α} :
    (b', l) ∈ potentialRow l2b bl b lp ↔
      b' = b ∧ l ∈ keys lp ∧ (dlook l l2b).isSome ∧ l ≠ bl := by
  induction lp with
  | nil => simp [potentialRow, keys]
  | cons e es ih =>
    rw [potentialRow]
    by_cases hc : dlook e.1 l2b = none ∨ e.1 = bl
    · rw [if_pos hc, ih]
      constructor
      · rintro ⟨rfl, h2, h3, h4⟩
        exact ⟨rfl, List.mem_cons_of_mem _ h2, h3, h4⟩
      · rintro ⟨rfl, h2, h3, h4⟩
        rcases List.mem_cons.1 (show l ∈ e.1 :: keys es from h2) with rfl | h2'
        · rcases hc with hc | hc
          · rw [hc] at h3; cases h3
          · exact absurd hc h4
        · exact ⟨rfl, h2', h3, h4⟩
    · rw [if_neg hc]
      push_neg at hc
      constructor
      · intro hmem
        rcases List.mem_cons.1 hmem with heq | hmem'
        · injection heq with h1 h2
          subst h1
          subst h2
          exact ⟨rfl, List.mem_cons_self _ _,
            Option.ne_none_iff_isSome.1 hc.1, hc.2⟩
        · obtain ⟨rfl, h2, h3, h4⟩ := ih.1 hmem'
          exact ⟨rfl, List.mem_cons_of_mem _ h2, h3, h4⟩
      · rintro ⟨rfl, h2, h3, h4⟩
        rcases List.mem_cons.1 (show l ∈ e.1 :: keys es from h2) with rfl | h2'
        · exact List.mem_cons_self _ _
        · exact List.mem_cons_of_mem _ (ih.2 ⟨rfl, h2', h3, h4⟩)

theorem mem_potentialPairs {lp : List (α × List (α × Nat))}
    {b2l l2b : List (α × α)} {bp : List (α × List (α × Nat))} {b l : α} :
    (b, l) ∈ potentialPairs lp b2l l2b bp ↔
      b ∈ keys bp ∧ l ∈ keys lp ∧ (dlook l l2b).isSome ∧
      ∃ bl, dlook b b2l = some bl ∧ l ≠ bl := by
  induction bp with
  | nil => simp [potentialPairs, keys]
  | cons e es ih =>
    rw [potentialPairs]
    rw [List.mem_append, ih]
    simp only [keys, List.map_cons, List.mem_cons]
    constructor
    · rintro (hrow | ⟨h1, h2, h3, h4⟩)
      · cases hd : dlook e.1 b2l with
        | none => rw [hd] at hrow; simp at hrow
        | some bl =>
          rw [hd] at hrow
          obtain ⟨rfl, h2, h3, h4⟩ := mem_potentialRow.1 hrow
          exact ⟨Or.inl rfl, h2, h3, bl, hd, h4⟩
      · exact ⟨Or.inr h1, h2, h3, h4⟩
    · rintro ⟨h1, h2, h3, bl, hbl, hne⟩
      rcases h1 with rfl | h1
      · left
        rw [hbl]
        exact mem_potentialRow.2 ⟨rfl, h2, h3, hne⟩
      · exact Or.inr ⟨h1, h2, h3, bl, hbl, hne⟩

/-- Membership characterization of the dictionary-preference instability
detector: a pair is reported exactly when the matching is non-empty, both
sides are currently matched preference-dictionary keys, the little is not
the big's own partner, and the strict-improvement rank test passes.  In
particular, a pair with an unmatched side is never reported. -/
theorem mem_check_instabilities_dicts {bp lp : List (α × List (α × Nat))}
    {ms : List (α × α)} {b l : α} :
    (b, l) ∈ check_instabilities_dicts bp lp ms ↔
      ms ≠ [] ∧ b ∈ keys bp ∧ l ∈ keys lp ∧
      (dlook l (ms.map (fun e => (e.2, e.1)))).isSome ∧
      (∃ bl, dlook b ms = some bl ∧ l ≠ bl) ∧
      is_instability bp lp b l ms (ms.map (fun e => (e.2, e.1))) = true := by
  rw [check_instabilities_dicts]
  by_cases hms : ms.isEmpty
  · rw [if_pos hms]
    simp [List.isEmpty_iff.1 hms]
  · rw [if_neg hms]
    rw [check_instabilities_dict_prefs, List.mem_filter,
      get_all_potential_pairs, mem_potentialPairs]
    have hne : ms ≠ [] := fun h => hms (by rw [h]; rfl)
    constructor
    · rintro ⟨⟨h1, h2, h3, h4⟩, h5⟩
      exact ⟨hne, h1, h2, h3, h4, h5⟩
    · rintro ⟨_, h1, h2, h3, h4, h5⟩
      exact ⟨⟨h1, h2, h3, h4⟩, h5⟩

omit [DecidableEq α] in
/-- Sum of row sums equals the sum over the cross-product pair list. -/
theorem sum_map_product {β : Type} {f : α → β → ℚ} {bs : List α}
    {ls : List β} :
    (bs.map (fun b => (ls.map (fun l => f b l)).sum)).sum =
      ((bs.product ls).map (fun e => f e.1 e.2)).sum := by
  induction bs with
  | nil => simp [List.product]
  | cons b bs ih =>
    rw [List.map_cons, List.sum_cons, ih]
    have hprod : (b :: bs).product ls =
        ls.map (fun l => (b, l)) ++ bs.product ls := by
      simp [List.product, List.flatMap_cons]
    rw [hprod, List.map_append, List.sum_append, List.map_map]
    rfl

/-- The nested objective sum equals a single sum over the pair list. -/
theorem optObjective_eq_sum_product {w : ℚ} {bp lp : α → List α}
    {bigs littles : List α} {x : α → α → Bool} :
    optObjective w bp lp bigs littles x =
      ((bigs.product littles).map (fun e =>
        score w bp lp bigs littles e.1 e.2 *
          (if x e.1 e.2 then 1 else 0))).sum := by
  rw [optObjective, sum_map_product]

omit [DecidableEq α] in
theorem two_le_length_of_mem_ne {xs : List α} {a b : α}
    (ha : a ∈ xs) (hb : b ∈ xs) (hab : a ≠ b) : 2 ≤ xs.length := by
  induction xs with
  | nil => simp at ha
  | cons c t ih =>
    rcases List.mem_cons.1 ha with rfl | ha'
    · have hbt : b ∈ t := by
        rcases List.mem_cons.1 hb with rfl | hb'
        · exact absurd rfl hab
        · exact hb'
      have : 1 ≤ t.length := List.length_pos.2 (List.ne_nil_of_mem hbt)
      simp only [List.length_cons]
      omega
    · have : 1 ≤ t.length := List.length_pos.2 (List.ne_nil_of_mem ha')
      simp only [List.length_cons]
      omega

/-- Any feasible solution of the `build_model_smti` system matches each
participant with at most one partner. -/
theorem smti_at_most_one {bigs littles : List α} {bp lp : α → α → Option Nat}
    {x : α → α → Bool} (hf : BuildModelSmtiFeasible bigs littles bp lp x) :
    (∀ b ∈ bigs, ∀ l1 ∈ littles, ∀ l2 ∈ littles,
      x b l1 = true → x b l2 = true → l1 = l2) ∧
    (∀ l ∈ littles, ∀ b1 ∈ bigs, ∀ b2 ∈ bigs,
      x b1 l = true → x b2 l = true → b1 = b2) := by
  obtain ⟨nm, bwb, lwb, hrow, hcol, _⟩ := hf
  constructor
  · intro b hb l1 hl1 l2 hl2 hx1 hx2
    by_contra hne
    have h1 : l1 ∈ littles.filter (fun l => x b l) := List.mem_filter.2 ⟨hl1, hx1⟩
    have h2 : l2 ∈ littles.filter (fun l => x b l) := List.mem_filter.2 ⟨hl2, hx2⟩
    have := two_le_length_of_mem_ne h1 h2 hne
    have hle := hrow b hb
    rw [rowCount] at hle
    omega
  · intro l hl b1 hb1 b2 hb2 hx1 hx2
    by_contra hne
    have h1 : b1 ∈ bigs.filter (fun b => x b l) := List.mem_filter.2 ⟨hb1, hx1⟩
    have h2 : b2 ∈ bigs.filter (fun b => x b l) := List.mem_filter.2 ⟨hb2, hx2⟩
    have := two_le_length_of_mem_ne h1 h2 hne
    have hle := hcol l hl
    rw [colCount] at hle
    omega

/-- The one-big one-little instance where neither side ranks the other:
the all-ones assignment is feasible for `build_model_smti` since the only
pair is skipped by the acceptability test. -/
theorem smtiFeasibleEx :
    BuildModelSmtiFeasible ["b"] ["l"] (fun _ _ => none) (fun _ _ => none)
      (fun _ _ => true) := by
  refine ⟨fun _ _ => false, fun _ _ => false, fun _ _ => false, ?_⟩
  unfold FeasibleSmtiModel
  decide

end Matcher

theorem sto_receivers_rank {pp rp : List (α × List α)}
    (h : StrictTotalOrderInput pp rp) :
    GaleShapley.ReceiversRankProposers pp rp := by
  intro e he r hr
  obtain ⟨rl, hrl⟩ := Option.isSome_iff_exists.1
    (alook_isSome_iff.2 ((h.2.2.1 e he).2.1 r hr))
  refine ⟨by rw [hrl]; rfl, ?_⟩
  intro f hf _
  rw [hrl]
  exact (h.2.2.2 (r, rl) (alook_mem hrl)).2.2 f.1 (List.mem_map_of_mem Prod.fst hf)

/-- Core stability bridge: in any reachable final state of the
deferred-acceptance loop on a strict-total-order input, the list-preference
instability checker reports no blocking pair (and raises no exception). -/
theorem gs_final_checker_nil {pp rp : List (α × List α)}
    (hSTO : StrictTotalOrderInput pp rp) {stf : GaleShapley.GSState α}
    (inv : GaleShapley.Inv0 pp stf) (hprop : GaleShapley.Proposed pp rp stf) :
    Matcher.check_instabilities_list_prefs pp rp
      (stf.cm.map (fun e => (e.2, e.1))) = some [] := by
  obtain ⟨hppnd, hrpnd, hppl, hrpl⟩ := hSTO
  rw [Matcher.check_instabilities_list_prefs, map_swap_swap]
  refine Matcher.checkRowsList_nil ?_
  intro e he l hl
  obtain ⟨b, bprefs⟩ := e
  simp only at hl ⊢
  have hcmnd : (keys stf.cm).Nodup := inv.rec_nodup
  have hb2lnd : (keys (stf.cm.map (fun e => (e.2, e.1)))).Nodup := by
    rw [keys_map_swap]
    exact vals_nodup hcmnd inv.val_inj
  rw [Matcher.checkPairList]
  by_cases hskip : dlook b (stf.cm.map (fun e => (e.2, e.1))) = some l
  · rw [if_pos hskip]
  · rw [if_neg hskip]
    cases hmb : dlook b (stf.cm.map (fun e => (e.2, e.1))) with
    | none => simp [hmb]
    | some mb =>
      cases hlb : dlook l stf.cm with
      | none => simp [hmb, hlb]
      | some lb =>
        -- both sides matched: all ranks are defined and no strict double
        -- improvement is possible
        have hmb' : alook b (stf.cm.map (fun e => (e.2, e.1))) = some mb := by
          rw [← dlook_eq_alook hb2lnd]
          exact hmb
        have hmbcm : (mb, b) ∈ stf.cm := alook_map_swap_mem hmb'
        have hlb' : alook l stf.cm = some lb := by
          rw [← dlook_eq_alook hcmnd]
          exact hlb
        obtain ⟨cb, prefsb, hbnx, hbpp, hcb1, hbget⟩ := inv.matched_at (mb, b) hmbcm
        have hbpp' : alook b pp = some bprefs :=
          alook_of_mem_nodup hppnd he
        obtain rfl : bprefs = prefsb := Option.some.inj (hbpp'.symm.trans hbpp)
        obtain ⟨hbnodup, hbsub, _⟩ := hppl (b, bprefs) he
        have himb : pyIndex bprefs mb = some (cb - 1) :=
          pyIndex_of_get?_nodup hbnodup hbget
        obtain ⟨il, hil⟩ := Option.isSome_iff_exists.1 (pyIndex_isSome_iff.2 hl)
        obtain ⟨lprefs, hlrp⟩ := Option.isSome_iff_exists.1
          (alook_isSome_iff.2 (hbsub l hl))
        obtain ⟨hlnodup, _, hlsup⟩ := hrpl (l, lprefs) (alook_mem hlrp)
        have hbmem : b ∈ keys pp := List.mem_map_of_mem Prod.fst he
        obtain ⟨ib, hib⟩ := Option.isSome_iff_exists.1
          (pyIndex_isSome_iff.2 (hlsup b hbmem))
        have hlbk : lb ∈ keys pp := inv.val_sub (l, lb) (alook_mem hlb')
        obtain ⟨ilb, hilb⟩ := Option.isSome_iff_exists.1
          (pyIndex_isSome_iff.2 (hlsup lb hlbk))
        simp only [hlb, hil, himb, hlrp, hib, hilb]
        by_cases hless : il < cb - 1
        · -- b already proposed to l and was turned down: l's current partner
          -- is ranked at least as well as b
          have hilcb : il < cb := lt_of_lt_of_le hless (Nat.sub_le cb 1)
          have hgetl : ((alook b pp).getD []).get? il = some l := by
            rw [hbpp']
            simpa using pyIndex_get? hil
          obtain ⟨p', rl, kp, kq, hp1, hp2, hp3, hp4, hp5⟩ :=
            hprop b cb hbnx il hilcb l hgetl
          obtain rfl : lb = p' := Option.some.inj (hlb'.symm.trans hp1)
          obtain rfl : lprefs = rl := Option.some.inj (hlrp.symm.trans hp2)
          have hkp : pyIndex lprefs lb = some kp := by
            rw [← enumRank_eq_pyIndex hlnodup]
            exact hp3
          have hkq : pyIndex lprefs b = some kq := by
            rw [← enumRank_eq_pyIndex hlnodup]
            exact hp4
          obtain rfl : ilb = kp := Option.some.inj (hilb.symm.trans hkp)
          obtain rfl : ib = kq := Option.some.inj (hib.symm.trans hkq)
          have hnb : decide (ib < ilb) = false := decide_eq_false (not_lt.2 hp5)
          rw [hnb, Bool.and_false]
        · have hnl : decide (il < cb - 1) = false := decide_eq_false hless
          rw [hnl, Bool.false_and]

/-!
The claims.
-/

/-- C1: for every strict-total-order input (each proposer ranks all
receivers and vice versa, no ties, no duplicates), `GaleShapley.match`
returns a matching, and that matching has zero blocking pairs as computed by
`check_instabilities` on list preferences (which also raises no error). -/
theorem claim_c1_gs_stable {pp rp : List (α × List α)}
    (hSTO : StrictTotalOrderInput pp rp) :
    ∃ ms, GaleShapley.gsMatch pp rp = some ms ∧
      Matcher.check_instabilities_lists pp rp ms = some [] := by
  have H := sto_receivers_rank hSTO
  obtain ⟨res, cnt, hrun, _⟩ := GaleShapley.matchRun_total hSTO.1 H
  refine ⟨res, ?_, ?_⟩
  · rw [GaleShapley.gsMatch, hrun]
    rfl
  · rw [GaleShapley.matchRun] at hrun
    obtain ⟨stf, inv, hprop, hfree, rfl⟩ :=
      GaleShapley.gsRun_finalS H _ _ _ (GaleShapley.inv0_init hSTO.1)
        GaleShapley.proposed_init hrun
    have hchk := gs_final_checker_nil hSTO inv hprop
    rw [Matcher.check_instabilities_lists]
    by_cases he : (stf.cm.map (fun e => (e.2, e.1))).isEmpty
    · rw [if_pos he]
    · rw [if_neg he]
      exact hchk

/-- Witness for C1: the 3x3 concrete strict-total-order instance. -/
theorem claim_c1_witness :
    StrictTotalOrderInput ppEx rpEx ∧
    ∃ ms, GaleShapley.gsMatch ppEx rpEx = some ms ∧
      Matcher.check_instabilities_lists ppEx rpEx ms = some [] :=
  ⟨by unfold StrictTotalOrderInput; decide,
   claim_c1_gs_stable (by unfold StrictTotalOrderInput; decide)⟩

/-- C2: for the strict-total-order variant, an assignment of the decision
variables satisfies the constraint system emitted by `build_model` exactly
when the variables set to 1 form a perfect matching with no blocking pair. -/
theorem claim_c2_build_model {bigs littles : List α} {bp lp : α → List α}
    (h : Matcher.StrictTotalOrderLists bigs littles bp lp) :
    ∀ x : α → α → Bool,
      Matcher.BuildModelFeasible bigs littles bp lp x ↔
        Matcher.SpecPerfectMatching bigs littles x ∧
        Matcher.SpecStable bigs littles bp lp x :=
  fun x => Matcher.build_model_iff h x

/-- Witness for C2 at the concrete 3x3 instance. -/
theorem claim_c2_witness :
    Matcher.StrictTotalOrderLists bigsEx littlesEx bpfEx lpfEx ∧
    ∀ x : String → String → Bool,
      Matcher.BuildModelFeasible bigsEx littlesEx bpfEx lpfEx x ↔
        Matcher.SpecPerfectMatching bigsEx littlesEx x ∧
        Matcher.SpecStable bigsEx littlesEx bpfEx lpfEx x :=
  ⟨by unfold Matcher.StrictTotalOrderLists; decide,
   claim_c2_build_model (by unfold Matcher.StrictTotalOrderLists; decide)⟩

/-- C3 counterexample: `b2` and `l2` are mutually acceptable and both
unmatched (so both would strictly improve), yet the dictionary-preference
instability detection does not report `(b2, l2)` — it skips every unmatched
participant, contradicting the claim. -/
theorem claim_c3_counterexample :
    alook "l2" ((alook "b2" bpD).getD []) = some 1 ∧
    alook "b2" ((alook "l2" lpD).getD []) = some 1 ∧
    dlook "b2" msD = none ∧
    dlook "l2" (msD.map (fun e => (e.2, e.1))) = none ∧
    ("b2", "l2") ∉ Matcher.check_instabilities_dicts bpD lpD msD := by
  decide

/-- C3 amended: dictionary-preference blocking-pair detection examines a
pair `(b, l)` only when the matching is non-empty, `b` is a matched
big-preference key, `l` is a matched little-preference key other than `b`'s
own partner; such a pair is reported exactly when the strict-improvement
rank test passes (unranked current partners counting as infinitely bad).
Pairs with an unmatched side are never examined or reported. -/
theorem claim_c3_detector_characterization
    {bp lp : List (α × List (α × Nat))} {ms : List (α × α)} {b l : α} :
    (b, l) ∈ Matcher.check_instabilities_dicts bp lp ms ↔
      ms ≠ [] ∧ b ∈ keys bp ∧ l ∈ keys lp ∧
      (dlook l (ms.map (fun e => (e.2, e.1)))).isSome ∧
      (∃ bl, dlook b ms = some bl ∧ l ≠ bl) ∧
      Matcher.is_instability bp lp b l ms (ms.map (fun e => (e.2, e.1))) = true :=
  Matcher.mem_check_instabilities_dicts

/-- C4 counterexample: on the one-big one-little instance where neither side
ranks the other, the all-ones assignment is feasible for the
`build_model_smti` system even though the selected pair is not mutually
acceptable — the model never forces unacceptable pairs to 0. -/
theorem claim_c4_counterexample :
    Matcher.BuildModelSmtiFeasible ["b"] ["l"] (fun _ _ => none)
      (fun _ _ => none) (fun _ _ => true) ∧
    (fun _ _ => true : String → String → Bool) "b" "l" = true ∧
    (fun _ _ => none : String → String → Option Nat) "b" "l" = none :=
  ⟨Matcher.smtiFeasibleEx, rfl, rfl⟩

/-- C4 amended: every feasible solution of the `build_model_smti` system
matches each participant at most once; mutual acceptability of selected
pairs is, however, not enforced (see the counterexample). -/
theorem claim_c4_at_most_one {bigs littles : List α}
    {bp lp : α → α → Option Nat} {x : α → α → Bool}
    (hf : Matcher.BuildModelSmtiFeasible bigs littles bp lp x) :
    (∀ b ∈ bigs, ∀ l1 ∈ littles, ∀ l2 ∈ littles,
      x b l1 = true → x b l2 = true → l1 = l2) ∧
    (∀ l ∈ littles, ∀ b1 ∈ bigs, ∀ b2 ∈ bigs,
      x b1 l = true → x b2 l = true → b1 = b2) :=
  Matcher.smti_at_most_one hf

/-- Witness for the amended C4 on the concrete feasible instance. -/
theorem claim_c4_witness :
    Matcher.BuildModelSmtiFeasible ["b"] ["l"] (fun _ _ => none)
      (fun _ _ => none) (fun _ _ => true) ∧
    ((∀ b ∈ ["b"], ∀ l1 ∈ ["l"], ∀ l2 ∈ ["l"],
      (fun _ _ => true : String → String → Bool) b l1 = true →
      (fun _ _ => true : String → String → Bool) b l2 = true → l1 = l2) ∧
    (∀ l ∈ ["l"], ∀ b1 ∈ ["b"], ∀ b2 ∈ ["b"],
      (fun _ _ => true : String → String → Bool) b1 l = true →
      (fun _ _ => true : String → String → Bool) b2 l = true → b1 = b2)) :=
  ⟨Matcher.smtiFeasibleEx, claim_c4_at_most_one Matcher.smtiFeasibleEx⟩

/-- C5 counterexample: on the spec's concrete 3x3 scenario every proposer's
first choice is distinct, so `GaleShapley.match` returns
`{(Ishaan, Swapneel), (Cindy, Kevin), (Thomas, Zora)}`; the claimed pair
`(Ishaan, Kevin)` is not in the returned matching. -/
theorem claim_c5_counterexample :
    GaleShapley.gsMatch ppEx rpEx = some gsOutEx ∧
    ("Ishaan", "Kevin") ∉ gsOutEx := by
  decide

/-- C5 amended: on the concrete 3x3 scenario, `GaleShapley.match` returns
exactly the pairs `{(Ishaan, Swapneel), (Cindy, Kevin), (Thomas, Zora)}` —
every proposer obtains their first choice. -/
theorem claim_c5_match :
    GaleShapley.gsMatch ppEx rpEx = some gsOutEx := by
  decide

/-- C6 counterexample: the sentinel is `len(littles)`, not one greater; with
one little it equals 1, so a candidate actually ranked 1 (the best) is
treated as unacceptable and skipped by the SMTI model. -/
theorem claim_c6_counterexample :
    Matcher.maxRankB (["l"] : List String) ≠ (["l"] : List String).length + 1 ∧
    (fun _ _ => some 1 : String → String → Option Nat) "b" "l" = some 1 ∧
    Matcher.smtiSkip ["b"] ["l"] (fun _ _ => some 1) (fun _ _ => some 1)
      "b" "l" = true := by
  decide

omit [DecidableEq α] in
/-- C6 amended: the sentinel rank equals the total candidate count on its
side (`len(littles)` / `len(bigs)`), and a pair whose actual ranks are both
strictly below the count is never treated as unacceptable by the SMTI
model; a real rank equal to the count, however, collides with the
sentinel. -/
theorem claim_c6_sentinel {bigs littles : List α} {bp lp : α → α → Option Nat}
    {b l : α} {r s : Nat} (hb : bp b l = some r) (hr : r < littles.length)
    (hl : lp l b = some s) (hs : s < bigs.length) :
    Matcher.maxRankB littles = littles.length ∧
    Matcher.maxRankL bigs = bigs.length ∧
    Matcher.smtiSkip bigs littles bp lp b l = false := by
  refine ⟨rfl, rfl, ?_⟩
  rw [Matcher.smtiSkip, Bool.or_eq_false_iff]
  constructor
  · rw [decide_eq_false_iff_not, Matcher.smtiBRank, hb, Option.getD_some,
      Matcher.maxRankB]
    omega
  · rw [decide_eq_false_iff_not, Matcher.smtiLRank, hl, Option.getD_some,
      Matcher.maxRankL]
    omega

/-- Witness for the amended C6. -/
theorem claim_c6_witness :
    ((fun _ _ => some 1 : String → String → Option Nat) "b" "l" = some 1 ∧
      1 < (["l1", "l2"] : List String).length ∧
      (fun _ _ => some 0 : String → String → Option Nat) "l" "b" = some 0 ∧
      0 < (["b"] : List String).length) ∧
    (Matcher.maxRankB (["l1", "l2"] : List String) =
        (["l1", "l2"] : List String).length ∧
      Matcher.maxRankL (["b"] : List String) = (["b"] : List String).length ∧
      Matcher.smtiSkip ["b"] ["l1", "l2"] (fun _ _ => some 1)
        (fun _ _ => some 0) "b" "l" = false) :=
  ⟨⟨rfl, by decide, rfl, by decide⟩,
   claim_c6_sentinel rfl (by decide) rfl (by decide)⟩

/-- C7 counterexample: the backend reporting infeasible and the backend
failing for unrelated reasons produce the very same untyped
`ValueError('Not possible!')` — `solve` does not distinguish a missing
stable matching from a backend failure with a dedicated error type. -/
theorem claim_c7_counterexample :
    Matcher.solveOutcome Matcher.CpStatus.INFEASIBLE
        ([] : List (String × String)) =
      Matcher.solveOutcome Matcher.CpStatus.UNKNOWN [] ∧
    Matcher.solveOutcome Matcher.CpStatus.INFEASIBLE
        ([] : List (String × String)) = Except.error "Not possible!" :=
  ⟨rfl, rfl⟩

omit [DecidableEq α] in
/-- C7 amended: on every non-`OPTIMAL` backend status — infeasibility and
backend failure alike — `solve` raises the same generic
`ValueError('Not possible!')` and never returns a (partial) matching. -/
theorem claim_c7_solve_error {status : Matcher.CpStatus}
    (h : status ≠ Matcher.CpStatus.OPTIMAL) (ms : List (α × α)) :
    Matcher.solveOutcome status ms = Except.error "Not possible!" ∧
    ∀ res, Matcher.solveOutcome status ms ≠ Except.ok res := by
  rw [Matcher.solveOutcome, if_neg h]
  exact ⟨rfl, fun res h' => by cases h'⟩

/-- Witness for the amended C7 at the `INFEASIBLE` status. -/
theorem claim_c7_witness :
    Matcher.CpStatus.INFEASIBLE ≠ Matcher.CpStatus.OPTIMAL ∧
    (Matcher.solveOutcome Matcher.CpStatus.INFEASIBLE
        ([] : List (String × String)) = Except.error "Not possible!" ∧
      ∀ res, Matcher.solveOutcome Matcher.CpStatus.INFEASIBLE
        ([] : List (String × String)) ≠ Except.ok res) :=
  ⟨by decide, claim_c7_solve_error (by decide) []⟩

/-- C8: the score of every pair equals
`weight * normalized_rank_quality(b's rank of l) +
(1 - weight) * normalized_rank_quality(l's rank of b)`, where the quality
maps the best rank to the maximum achievable value and the sentinel to
exactly zero, linearly in between; with `weight = 1` the score is
independent of the receiver's preferences and with `weight = 0` of the
proposer's; and the objective handed to the backend is the sum over all
pairs of `score * decision variable`. -/
theorem claim_c8_score {w : ℚ} {bp lp bp2 lp2 : α → List α}
    {bigs littles : List α} {b l : α} {x : α → α → Bool} :
    Matcher.score w bp lp bigs littles b l =
      w * Matcher.normalized_rank_quality (Matcher.maxRankB littles)
            (Matcher.optRankB bp littles b l) +
      (1 - w) * Matcher.normalized_rank_quality (Matcher.maxRankL bigs)
            (Matcher.optRankL lp bigs l b) ∧
    (∀ n : Nat, Matcher.normalized_rank_quality n 0 = (n : ℚ) ∧
      Matcher.normalized_rank_quality n n = 0 ∧
      ∀ r : Nat, Matcher.normalized_rank_quality n (r + 1) =
        Matcher.normalized_rank_quality n r - 1) ∧
    Matcher.score 1 bp lp bigs littles b l =
      Matcher.score 1 bp lp2 bigs littles b l ∧
    Matcher.score 0 bp lp bigs littles b l =
      Matcher.score 0 bp2 lp bigs littles b l ∧
    Matcher.optObjective w bp lp bigs littles x =
      ((bigs.product littles).map (fun e =>
        Matcher.score w bp lp bigs littles e.1 e.2 *
          (if x e.1 e.2 then 1 else 0))).sum := by
  refine ⟨rfl, ?_, ?_, ?_, Matcher.optObjective_eq_sum_product⟩
  · intro n
    refine ⟨by simp [Matcher.normalized_rank_quality], ?_, ?_⟩
    · simp [Matcher.normalized_rank_quality]
    · intro r
      rw [Matcher.normalized_rank_quality, Matcher.normalized_rank_quality]
      push_cast
      ring
  · rw [Matcher.score, Matcher.score]
    ring
  · rw [Matcher.score, Matcher.score]
    ring

/-- C9: on every input with distinct proposer keys whose receivers rank all
proposers that may propose to them, `GaleShapley.match` terminates without
error, and its total number of proposal attempts is bounded by the number of
proposers times the maximum preference-list length. -/
theorem claim_c9_termination {pp rp : List (α × List α)}
    (hnd : (keys pp).Nodup) (H : GaleShapley.ReceiversRankProposers pp rp) :
    ∃ ms cnt, GaleShapley.matchRun pp rp = some (ms, cnt) ∧
      GaleShapley.gsMatch pp rp = some ms ∧
      cnt ≤ pp.length * GaleShapley.maxPrefLen pp := by
  obtain ⟨ms, cnt, hrun, hb⟩ := GaleShapley.matchRun_total hnd H
  refine ⟨ms, cnt, hrun, ?_, hb⟩
  rw [GaleShapley.gsMatch, hrun]
  rfl

/-- Witness for C9 at the concrete 3x3 instance. -/
theorem claim_c9_witness :
    ((keys ppEx).Nodup ∧ GaleShapley.ReceiversRankProposers ppEx rpEx) ∧
    ∃ ms cnt, GaleShapley.matchRun ppEx rpEx = some (ms, cnt) ∧
      GaleShapley.gsMatch ppEx rpEx = some ms ∧
      cnt ≤ ppEx.length * GaleShapley.maxPrefLen ppEx :=
  ⟨⟨by decide, by unfold GaleShapley.ReceiversRankProposers; decide⟩,
   claim_c9_termination (by decide)
     (by unfold GaleShapley.ReceiversRankProposers; decide)⟩

/-- C10: on every dictionary input (distinct proposer keys) on which
`GaleShapley.match` returns, the returned pair list is a valid one-to-one
partial matching: each receiver appears at most once, each proposer appears
at most once, and every pair `(p, r)` has `r` drawn from `p`'s own
preference list. -/
theorem claim_c10_valid_matching {pp rp : List (α × List α)}
    (hnd : (keys pp).Nodup) {ms : List (α × α)}
    (h : GaleShapley.gsMatch pp rp = some ms) :
    (ms.map Prod.snd).Nodup ∧ (ms.map Prod.fst).Nodup ∧
    ∀ e ∈ ms, ∃ prefs, alook e.1 pp = some prefs ∧ e.2 ∈ prefs := by
  rw [GaleShapley.gsMatch] at h
  obtain ⟨⟨res, cnt⟩, hrun, hres⟩ := Option.map_eq_some'.1 h
  simp only at hres
  subst hres
  rw [GaleShapley.matchRun] at hrun
  obtain ⟨stf, inv, hfree, rfl⟩ :=
    GaleShapley.gsRun_final _ _ _ (GaleShapley.inv0_init hnd) hrun
  refine ⟨?_, ?_, ?_⟩
  · have hcomp : (stf.cm.map (fun e => (e.2, e.1))).map Prod.snd =
        stf.cm.map Prod.fst := by
      rw [List.map_map]
      rfl
    rw [hcomp]
    exact inv.rec_nodup
  · have hcomp : (stf.cm.map (fun e => (e.2, e.1))).map Prod.fst =
        stf.cm.map Prod.snd := by
      rw [List.map_map]
      rfl
    rw [hcomp]
    exact vals_nodup inv.rec_nodup inv.val_inj
  · intro e he
    obtain ⟨f, hf, rfl⟩ := List.mem_map.1 he
    obtain ⟨c, prefs, _, hfpp, _, hfget⟩ := inv.matched_at f hf
    exact ⟨prefs, hfpp, List.get?_mem hfget⟩

/-- Witness for C10 at the concrete 3x3 instance. -/
theorem claim_c10_witness :
    ((keys ppEx).Nodup ∧ GaleShapley.gsMatch ppEx rpEx = some gsOutEx) ∧
    ((gsOutEx.map Prod.snd).Nodup ∧ (gsOutEx.map Prod.fst).Nodup ∧
      ∀ e ∈ gsOutEx, ∃ prefs, alook e.1 ppEx = some prefs ∧ e.2 ∈ prefs) :=
  ⟨⟨by decide, by decide⟩,
   @claim_c10_valid_matching String _ ppEx rpEx (by decide) gsOutEx (by decide)⟩

end BigLittle
